import Mathlib

/-!
# Verification of the Ink declarative logic language

A shallow embedding of the Ink interpreter (`src/ink/interpreter.py`,
`src/ink/ast_nodes.py`) and the verb-aware clause segmenter of the parser
(`src/ink/parser.py`), together with theorems settling the spec claims.

Identifiers (Python strings) are modelled as `List Char`; Python `set`s of
facts/edges as `Finset`; Python `dict` substitutions as association lists
where a key is inserted only when absent (exactly as the source does).
The interpreter's unbounded `while` loops (transitive closure, fixpoint)
are modelled with an explicit fuel parameter large enough to be proved
sufficient; `none`/fuel exhaustion models divergence, and termination of
the source loop is the theorem that enough fuel yields `some`.
-/

set_option maxHeartbeats 1000000

namespace Ink

/-- Identifiers: Python strings, modelled as lists of characters. -/
abbrev Ident := List Char

/-! ## AST node types (`ast_nodes.py`) -/

/-- `Proposition`: an atomic fact or variable placeholder. -/
structure Proposition where
  identifier : Ident
  is_variable : Bool
deriving DecidableEq

/-- `SVOClause`: a subject-verb-object clause. -/
structure SVOClause where
  subject : Ident
  subject_is_var : Bool
  verb : Ident
  verb_is_var : Bool
  object : Ident
  object_is_var : Bool
deriving DecidableEq

/-- `ClassificationEdge`: a subtype-of edge `X 者 Y 也`. -/
structure ClassificationEdge where
  subtype : Ident
  subtype_is_var : Bool
  supertype : Ident
  supertype_is_var : Bool
deriving DecidableEq

/-- The union `Proposition | SVOClause | ClassificationEdge` of fact-shaped
AST nodes (the type of facts, premises, conclusions, query expressions). -/
inductive Fact where
  | prop (p : Proposition)
  | svo (c : SVOClause)
  | cls (e : ClassificationEdge)
deriving DecidableEq

/-- `Rule`: premises and a conclusion, each fact-shaped. -/
structure Rule where
  premises : List Fact
  conclusion : Fact
deriving DecidableEq

/-- `Query`: wraps a fact-shaped expression. -/
structure Query where
  expression : Fact
deriving DecidableEq

/-- The full union of AST statement nodes produced by the parser
(`VerbDeclaration` carries just the verb string). -/
inductive Node where
  | fact (f : Fact)
  | rule (r : Rule)
  | query (q : Query)
  | verbDecl (verb : Ident)
deriving DecidableEq

/-! ## Substitutions

Python `dict[str, str]` threaded through unification.  The source only ever
inserts a key that is absent (`new_subst[var] = value` after an explicit
`in` check), so an association list with insert-at-front is an exact model:
lookup finds the unique binding. -/

/-- A substitution: association list from variable names to identifiers. -/
abbrev Subst := List (Ident × Ident)

/-- Dictionary lookup (`subst[k]` / `k in subst`). -/
def Subst.find : Subst → Ident → Option Ident
  | [], _ => none
  | (k, v) :: rest, x => if k = x then some v else Subst.find rest x

/-- All identifiers appearing as bound values of a substitution. -/
def Subst.values : Subst → Finset Ident
  | [] => ∅
  | (_, v) :: rest => insert v (Subst.values rest)

theorem Subst.find_mem {s : Subst} {k v : Ident} (h : Subst.find s k = some v) :
    (k, v) ∈ s := by
  induction s with
  | nil => simp [Subst.find] at h
  | cons hd tl ih =>
    obtain ⟨k0, v0⟩ := hd
    by_cases hk : k0 = k
    · subst hk
      simp [Subst.find] at h
      simp [h]
    · simp [Subst.find, hk] at h
      exact List.mem_cons_of_mem _ (ih h)

theorem Subst.find_values {s : Subst} {k v : Ident} (h : Subst.find s k = some v) :
    v ∈ Subst.values s := by
  induction s with
  | nil => simp [Subst.find] at h
  | cons hd tl ih =>
    obtain ⟨k0, v0⟩ := hd
    by_cases hk : k0 = k
    · subst hk
      simp [Subst.find] at h
      simp [Subst.values, h]
    · simp [Subst.find, hk] at h
      simp [Subst.values, ih h]

/-! ## Substitution application (`apply_substitution`, interpreter.py 21-62) -/

/-- The per-slot value rewrite of `apply_substitution`:
`subst[x] if is_var and x in subst else x`. -/
def substVal (subst : Subst) (x : Ident) (is_var : Bool) : Ident :=
  if is_var then (Subst.find subst x).getD x else x

/-- The per-slot flag rewrite of `apply_substitution`:
`is_var and x not in subst`. -/
def substFlag (subst : Subst) (x : Ident) (is_var : Bool) : Bool :=
  is_var && (Subst.find subst x).isNone

/-- `apply_substitution` on the three fact-shaped variants
(interpreter.py lines 32-59).  The `TypeError` branch for other node types
is modelled at the `Node` level by `apply_substitutionN` below. -/
def apply_substitution (node : Fact) (subst : Subst) : Fact :=
  match node with
  | .prop p => .prop ⟨substVal subst p.identifier p.is_variable,
      substFlag subst p.identifier p.is_variable⟩
  | .svo c => .svo ⟨substVal subst c.subject c.subject_is_var,
      substFlag subst c.subject c.subject_is_var,
      substVal subst c.verb c.verb_is_var,
      substFlag subst c.verb c.verb_is_var,
      substVal subst c.object c.object_is_var,
      substFlag subst c.object c.object_is_var⟩
  | .cls e => .cls ⟨substVal subst e.subtype e.subtype_is_var,
      substFlag subst e.subtype e.subtype_is_var,
      substVal subst e.supertype e.supertype_is_var,
      substFlag subst e.supertype e.supertype_is_var⟩

/-- Errors raised by the interpreter (`TypeError` for unsupported node
types in `apply_substitution` / `unify`). -/
inductive EvalErr where
  | unsupportedNode
deriving DecidableEq

/-- `apply_substitution` over the full node union, with the
`raise TypeError` branch (interpreter.py lines 61-62) made explicit. -/
def apply_substitutionN (node : Node) (subst : Subst) : Except EvalErr Node :=
  match node with
  | .fact f => .ok (.fact (apply_substitution f subst))
  | _ => .error .unsupportedNode

/-! ## Unification (`unify` and helpers, interpreter.py 66-206) -/

/-- `_unify_proposition` (interpreter.py 96-139): bind or check the pattern
variable; symmetrically handle a fact-side variable; else compare ground
identifiers. -/
def unify_proposition (pattern fact : Proposition) (subst : Subst) : Option Subst :=
  if pattern.is_variable then
    match Subst.find subst pattern.identifier with
    | some v => if v = fact.identifier then some subst else none
    | none => some ((pattern.identifier, fact.identifier) :: subst)
  else if fact.is_variable then
    match Subst.find subst fact.identifier with
    | some v => if v = pattern.identifier then some subst else none
    | none => some ((fact.identifier, pattern.identifier) :: subst)
  else if pattern.identifier = fact.identifier then some subst else none

/-- `_unify_svo_clause` (interpreter.py 143-176): unify subject, verb and
object as propositions, threading the substitution. -/
def unify_svo_clause (pattern fact : SVOClause) (subst : Subst) : Option Subst :=
  match unify_proposition ⟨pattern.subject, pattern.subject_is_var⟩
      ⟨fact.subject, fact.subject_is_var⟩ subst with
  | none => none
  | some subst1 =>
    match unify_proposition ⟨pattern.verb, pattern.verb_is_var⟩
        ⟨fact.verb, fact.verb_is_var⟩ subst1 with
    | none => none
    | some subst2 =>
      unify_proposition ⟨pattern.object, pattern.object_is_var⟩
        ⟨fact.object, fact.object_is_var⟩ subst2

/-- `_unify_classification_edge` (interpreter.py 180-206). -/
def unify_classification_edge (pattern fact : ClassificationEdge) (subst : Subst) :
    Option Subst :=
  match unify_proposition ⟨pattern.subtype, pattern.subtype_is_var⟩
      ⟨fact.subtype, fact.subtype_is_var⟩ subst with
  | none => none
  | some subst1 =>
    unify_proposition ⟨pattern.supertype, pattern.supertype_is_var⟩
      ⟨fact.supertype, fact.supertype_is_var⟩ subst1

/-- The dispatch of `unify` after the incoming substitution has been
applied: type mismatch fails, otherwise delegate per variant
(interpreter.py 82-91). -/
def unifyFacts (pattern fact : Fact) (subst : Subst) : Option Subst :=
  match pattern, fact with
  | .prop p, .prop f => unify_proposition p f subst
  | .svo p, .svo f => unify_svo_clause p f subst
  | .cls p, .cls f => unify_classification_edge p f subst
  | _, _ => none

/-- `unify` (interpreter.py 66-93): apply the incoming substitution to both
pattern and fact, then dispatch per variant. -/
def unify (pattern fact : Fact) (subst : Subst) : Option Subst :=
  unifyFacts (apply_substitution pattern subst) (apply_substitution fact subst) subst

/-- `unify` over the full node union: the substitution application raises
for non-fact nodes; the final `raise TypeError` branch of `unify` itself
(interpreter.py 92-93) is unreachable because non-fact nodes already fail
inside `apply_substitution`. -/
def unifyN (pattern fact : Node) (subst : Subst) : Except EvalErr (Option Subst) :=
  match apply_substitutionN pattern subst with
  | .error e => .error e
  | .ok p =>
    match apply_substitutionN fact subst with
    | .error e => .error e
    | .ok f =>
      match p, f with
      | .fact pf, .fact ff => .ok (unifyFacts pf ff subst)
      | _, _ => .error .unsupportedNode

/-- Variant tag of a fact-shaped node (`type(...)` in Python). -/
def Fact.tag : Fact → Nat
  | .prop _ => 0
  | .svo _ => 1
  | .cls _ => 2

theorem apply_substitution_tag (f : Fact) (s : Subst) :
    (apply_substitution f s).tag = f.tag := by
  cases f <;> rfl

theorem apply_substitution_nil (f : Fact) : apply_substitution f [] = f := by
  cases f <;> simp [apply_substitution, substVal, substFlag, Subst.find]

/-! ## Transitive closure of classification edges
(`compute_classification_closure`, interpreter.py 209-257) -/

/-- The transitive edge `A ⊑ C` built from `A ⊑ B` and `B ⊑ C`
(interpreter.py 242-247): subtype side from the first edge, supertype side
from the second, flags carried unchanged. -/
def mixEdge (e1 e2 : ClassificationEdge) : ClassificationEdge :=
  ⟨e1.subtype, e1.subtype_is_var, e2.supertype, e2.supertype_is_var⟩

/-- One full pairwise pass of the closure loop: all transitive edges
derivable from pairs in `c` (interpreter.py 232-247): the first edge's
supertype and the second edge's subtype must both be concrete and equal. -/
def transDerived (c : Finset ClassificationEdge) : Finset ClassificationEdge :=
  ((c ×ˢ c).filter fun p =>
      p.1.supertype_is_var = false ∧ p.2.subtype_is_var = false ∧
        p.1.supertype = p.2.subtype).image
    fun p => mixEdge p.1 p.2

/-- The `while changed` loop of `compute_classification_closure` with an
explicit fuel: each pass adds `transDerived c \ c`; the loop stops when a
pass adds nothing. -/
def closureAux : Nat → Finset ClassificationEdge → Finset ClassificationEdge
  | 0, c => c
  | fuel + 1, c =>
    let nw := transDerived c \ c
    if nw = ∅ then c else closureAux fuel (c ∪ nw)

/-- A finite universe containing every edge the closure loop can build from
`E`: the input edges plus every mix of a subtype side and a supertype side
of input edges.  Used to bound the number of loop passes. -/
def edgeUniverse (E : Finset ClassificationEdge) : Finset ClassificationEdge :=
  E ∪ (E ×ˢ E).image fun p => mixEdge p.1 p.2

/-- `compute_classification_closure` (interpreter.py 209-257): run the
pairwise saturation loop; `(edgeUniverse E).card + 1` passes are proved
sufficient for the loop to reach its natural exit. -/
def compute_classification_closure (E : Finset ClassificationEdge) :
    Finset ClassificationEdge :=
  closureAux ((edgeUniverse E).card + 1) E

/-- Closure property from the spec: whenever `A ⊑ B` and `B ⊑ C` are
present with concrete equal `B` on both sides, `A ⊑ C` is present with the
flags of `A` and `C` carried unchanged. -/
def ClosedUnder (S : Finset ClassificationEdge) : Prop :=
  ∀ e1 ∈ S, ∀ e2 ∈ S,
    e1.supertype_is_var = false → e2.subtype_is_var = false →
      e1.supertype = e2.subtype → mixEdge e1 e2 ∈ S

theorem mem_transDerived {c : Finset ClassificationEdge} {e : ClassificationEdge} :
    e ∈ transDerived c ↔
      ∃ e1 ∈ c, ∃ e2 ∈ c, e1.supertype_is_var = false ∧ e2.subtype_is_var = false ∧
        e1.supertype = e2.subtype ∧ e = mixEdge e1 e2 := by
  simp only [transDerived, Finset.mem_image, Finset.mem_filter, Finset.mem_product]
  constructor
  · rintro ⟨⟨e1, e2⟩, ⟨⟨h1, h2⟩, hv1, hv2, heq⟩, rfl⟩
    exact ⟨e1, h1, e2, h2, hv1, hv2, heq, rfl⟩
  · rintro ⟨e1, h1, e2, h2, hv1, hv2, heq, rfl⟩
    exact ⟨⟨e1, e2⟩, ⟨⟨h1, h2⟩, hv1, hv2, heq⟩, rfl⟩

theorem transDerived_subset_iff {c : Finset ClassificationEdge} :
    transDerived c ⊆ c ↔ ClosedUnder c := by
  constructor
  · intro h e1 h1 e2 h2 hv1 hv2 heq
    exact h (mem_transDerived.2 ⟨e1, h1, e2, h2, hv1, hv2, heq, rfl⟩)
  · intro h e he
    obtain ⟨e1, h1, e2, h2, hv1, hv2, heq, rfl⟩ := mem_transDerived.1 he
    exact h e1 h1 e2 h2 hv1 hv2 heq

theorem subset_closureAux (fuel : Nat) (c : Finset ClassificationEdge) :
    c ⊆ closureAux fuel c := by
  induction fuel generalizing c with
  | zero => simp [closureAux]
  | succ n ih =>
    simp only [closureAux]
    by_cases h : transDerived c \ c = ∅
    · simp [h]
    · simp only [h, if_neg h]
      exact (Finset.subset_union_left).trans (ih _)

theorem closureAux_subset_of_closed {S : Finset ClassificationEdge}
    (hS : ClosedUnder S) :
    ∀ fuel c, c ⊆ S → closureAux fuel c ⊆ S := by
  intro fuel
  induction fuel with
  | zero => intro c hc; simpa [closureAux] using hc
  | succ n ih =>
    intro c hc
    simp only [closureAux]
    by_cases h : transDerived c \ c = ∅
    · simp [h, hc]
    · simp only [if_neg h]
      apply ih
      apply Finset.union_subset hc
      intro e he
      obtain ⟨e1, h1, e2, h2, hv1, hv2, heq, rfl⟩ :=
        mem_transDerived.1 (Finset.mem_sdiff.1 he).1
      exact hS e1 (hc h1) e2 (hc h2) hv1 hv2 heq

theorem mem_edgeUniverse_subtype {E : Finset ClassificationEdge}
    {e : ClassificationEdge} (h : e ∈ edgeUniverse E) :
    ∃ a ∈ E, a.subtype = e.subtype ∧ a.subtype_is_var = e.subtype_is_var := by
  simp only [edgeUniverse, Finset.mem_union, Finset.mem_image,
    Finset.mem_product] at h
  rcases h with h | ⟨⟨a, b⟩, ⟨ha, _⟩, rfl⟩
  · exact ⟨e, h, rfl, rfl⟩
  · exact ⟨a, ha, rfl, rfl⟩

theorem mem_edgeUniverse_supertype {E : Finset ClassificationEdge}
    {e : ClassificationEdge} (h : e ∈ edgeUniverse E) :
    ∃ b ∈ E, b.supertype = e.supertype ∧ b.supertype_is_var = e.supertype_is_var := by
  simp only [edgeUniverse, Finset.mem_union, Finset.mem_image,
    Finset.mem_product] at h
  rcases h with h | ⟨⟨a, b⟩, ⟨_, hb⟩, rfl⟩
  · exact ⟨e, h, rfl, rfl⟩
  · exact ⟨b, hb, rfl, rfl⟩

theorem mixEdge_mem_edgeUniverse {E : Finset ClassificationEdge}
    {a b : ClassificationEdge} (ha : a ∈ E) (hb : b ∈ E) :
    mixEdge a b ∈ edgeUniverse E := by
  simp only [edgeUniverse, Finset.mem_union, Finset.mem_image, Finset.mem_product]
  exact Or.inr ⟨⟨a, b⟩, ⟨ha, hb⟩, rfl⟩

theorem transDerived_subset_edgeUniverse {E c : Finset ClassificationEdge}
    (hc : c ⊆ edgeUniverse E) : transDerived c ⊆ edgeUniverse E := by
  intro e he
  obtain ⟨e1, h1, e2, h2, _, _, _, rfl⟩ := mem_transDerived.1 he
  obtain ⟨a, ha, ha1, ha2⟩ := mem_edgeUniverse_subtype (hc h1)
  obtain ⟨b, hb, hb1, hb2⟩ := mem_edgeUniverse_supertype (hc h2)
  have : mixEdge e1 e2 = mixEdge a b := by
    simp [mixEdge, ha1, ha2, hb1, hb2]
  rw [this]
  exact mixEdge_mem_edgeUniverse ha hb

theorem closureAux_closed {E : Finset ClassificationEdge} :
    ∀ fuel c, c ⊆ edgeUniverse E →
      (edgeUniverse E).card + 1 ≤ c.card + fuel →
      ClosedUnder (closureAux fuel c) ∧ closureAux fuel c ⊆ edgeUniverse E := by
  intro fuel
  induction fuel with
  | zero =>
    intro c hc hcard
    have := Finset.card_le_card hc
    omega
  | succ n ih =>
    intro c hc hcard
    simp only [closureAux]
    by_cases h : transDerived c \ c = ∅
    · refine ⟨?_, by simpa [h] using hc⟩
      simp only [h, if_pos rfl]
      rw [← transDerived_subset_iff]
      intro e he
      by_contra hmem
      exact (Finset.eq_empty_iff_forall_not_mem.1 h e) (Finset.mem_sdiff.2 ⟨he, hmem⟩)
    · simp only [if_neg h]
      have hsub : c ∪ (transDerived c \ c) ⊆ edgeUniverse E := by
        apply Finset.union_subset hc
        exact (Finset.sdiff_subset).trans (transDerived_subset_edgeUniverse hc)
      have hcard2 : c.card < (c ∪ (transDerived c \ c)).card := by
        apply Finset.card_lt_card
        constructor
        · exact Finset.subset_union_left
        · intro hle
          obtain ⟨e, he⟩ := Finset.nonempty_iff_ne_empty.2 h
          exact (Finset.mem_sdiff.1 he).2 (hle (Finset.mem_union_right _ he))
      exact ih _ hsub (by omega)

theorem compute_classification_closure_subset (E : Finset ClassificationEdge) :
    E ⊆ compute_classification_closure E :=
  subset_closureAux _ _

theorem compute_classification_closure_closed (E : Finset ClassificationEdge) :
    ClosedUnder (compute_classification_closure E) :=
  (closureAux_closed _ _ (Finset.subset_union_left) (by omega)).1

theorem compute_classification_closure_subset_edgeUniverse
    (E : Finset ClassificationEdge) :
    compute_classification_closure E ⊆ edgeUniverse E :=
  (closureAux_closed _ _ (Finset.subset_union_left) (by omega)).2

theorem compute_classification_closure_least (E S : Finset ClassificationEdge)
    (hES : E ⊆ S) (hS : ClosedUnder S) :
    compute_classification_closure E ⊆ S :=
  closureAux_subset_of_closed hS _ _ hES

/-! ## Evaluation context and rule engine
(`Context`, `apply_rule`, interpreter.py 6-20, 260-323) -/

/-- Evaluation context (`Context` dataclass, interpreter.py 6-20). -/
structure Context where
  facts : Finset Fact
  classification_edges : Finset ClassificationEdge
  rules : List Rule
  verb_lexicon : Finset Ident

/-- The per-premise candidate list (interpreter.py 279-287): all
`(fact, substitution)` pairs obtained by unifying the premise against each
known fact, starting from an empty substitution. -/
def premiseMatches (facts : Finset Fact) (premise : Fact) : Finset (Fact × Subst) :=
  facts.biUnion fun f =>
    match unify premise f [] with
    | some s => {(f, s)}
    | none => ∅

/-- The cartesian product across the per-premise candidate sets
(`itertools.product`, interpreter.py 297): each combination picks one
candidate per premise, in premise order. -/
def combosOf : List (Finset (Fact × Subst)) → Finset (List (Fact × Subst))
  | [] => {[]}
  | m :: rest => (m ×ˢ combosOf rest).image fun p => p.1 :: p.2

/-- Merge one premise's substitution into the combined one
(interpreter.py 302-311): a variable already bound must agree, an unbound
one is added. -/
def mergeSubst (combined : Subst) : Subst → Option Subst
  | [] => some combined
  | (var, value) :: rest =>
    match Subst.find combined var with
    | some w => if w = value then mergeSubst combined rest else none
    | none => mergeSubst ((var, value) :: combined) rest

/-- Fold `mergeSubst` over a combination starting from the given combined
substitution (the `valid` loop of interpreter.py 299-314). -/
def mergeComboAux (combined : Subst) : List (Fact × Subst) → Option Subst
  | [] => some combined
  | (_, s) :: rest =>
    match mergeSubst combined s with
    | some c => mergeComboAux c rest
    | none => none

/-- Merge all per-premise substitutions of a combination, starting from the
empty combined substitution. -/
def mergeCombo (combination : List (Fact × Subst)) : Option Subst :=
  mergeComboAux [] combination

/-- `apply_rule` (interpreter.py 260-323): per-premise candidate sets, the
zero-candidate early exit, the cartesian product, consistent merging, and
conclusion instantiation with deduplication against the known facts. -/
def apply_rule (rule : Rule) (context : Context) : Finset Fact :=
  let premise_matches := rule.premises.map (premiseMatches context.facts)
  if premise_matches.any fun m => decide (m = ∅) then ∅
  else
    (combosOf premise_matches).biUnion fun combination =>
      match mergeCombo combination with
      | some s =>
        let derived := apply_substitution rule.conclusion s
        if derived ∈ context.facts then ∅ else {derived}
      | none => ∅

theorem mem_premiseMatches {facts : Finset Fact} {premise f : Fact} {s : Subst} :
    (f, s) ∈ premiseMatches facts premise ↔ f ∈ facts ∧ unify premise f [] = some s := by
  simp only [premiseMatches, Finset.mem_biUnion]
  constructor
  · rintro ⟨g, hg, hmem⟩
    cases h : unify premise g [] with
    | none => simp [h] at hmem
    | some t =>
      simp only [h, Finset.mem_singleton, Prod.mk.injEq] at hmem
      obtain ⟨rfl, rfl⟩ := hmem
      exact ⟨hg, h⟩
  · rintro ⟨hf, h⟩
    exact ⟨f, hf, by simp [h]⟩

theorem mem_combosOf {ms : List (Finset (Fact × Subst))} {c : List (Fact × Subst)} :
    c ∈ combosOf ms ↔ List.Forall₂ (fun x m => x ∈ m) c ms := by
  induction ms generalizing c with
  | nil =>
    simp only [combosOf, Finset.mem_singleton]
    constructor
    · rintro rfl; exact List.Forall₂.nil
    · intro h; cases h; rfl
  | cons m rest ih =>
    simp only [combosOf, Finset.mem_image, Finset.mem_product]
    constructor
    · rintro ⟨⟨x, xs⟩, ⟨hx, hxs⟩, rfl⟩
      exact List.Forall₂.cons hx (ih.1 hxs)
    · intro h
      cases h with
      | cons hx hxs => exact ⟨⟨_, _⟩, ⟨hx, ih.2 hxs⟩, rfl⟩

/-! ### Characterizing the merge of per-premise substitutions

The source's dicts bind each key at most once (`unify` inserts a key only
after finding it absent).  `SubstOk` captures that invariant for the
association-list model; under it the sequential merge fails exactly when
two substitutions bind a common key to different values. -/

/-- Every entry of the list agrees with what lookup returns: the
association list behaves like a dict with unique keys. -/
def SubstOk (s : Subst) : Prop := ∀ k v, (k, v) ∈ s → Subst.find s k = some v

/-- Two substitutions never bind a common key to different values. -/
def Agree (s t : Subst) : Prop :=
  ∀ k v w, Subst.find s k = some v → Subst.find t k = some w → v = w

theorem agree_nil_left (s : Subst) : Agree [] s := by
  intro k v w h _
  simp [Subst.find] at h

theorem agree_refl (s : Subst) : Agree s s := by
  intro k v w h1 h2
  rw [h1] at h2
  exact Option.some.inj h2

theorem agree_symm {s t : Subst} (h : Agree s t) : Agree t s :=
  fun k v w h1 h2 => (h k w v h2 h1).symm

theorem exists_find_of_mem {s : Subst} {k v : Ident} (h : (k, v) ∈ s) :
    ∃ w, Subst.find s k = some w := by
  induction s with
  | nil => simp at h
  | cons hd tl ih =>
    obtain ⟨k0, v0⟩ := hd
    by_cases hk : k0 = k
    · exact ⟨v0, by simp [Subst.find, hk]⟩
    · rcases List.mem_cons.1 h with h | h
      · exact absurd (congrArg Prod.fst h).symm hk
      · obtain ⟨w, hw⟩ := ih h
        exact ⟨w, by simp [Subst.find, hk, hw]⟩

theorem substOk_nil : SubstOk [] := by
  intro k v h
  simp at h

theorem substOk_cons {s : Subst} {k : Ident} {v : Ident}
    (hs : SubstOk s) (hk : Subst.find s k = none) : SubstOk ((k, v) :: s) := by
  intro k' v' h'
  rcases List.mem_cons.1 h' with h' | h'
  · obtain ⟨rfl, rfl⟩ := Prod.mk.injEq .. ▸ h'
    simp [Subst.find]
  · by_cases hkk : k = k'
    · subst hkk
      obtain ⟨w, hw⟩ := exists_find_of_mem h'
      rw [hk] at hw
      exact absurd hw (by simp)
    · simp only [Subst.find, if_neg hkk]
      exact hs _ _ h'

theorem substOk_tail {k0 v0 : Ident} {rest : Subst}
    (h : SubstOk ((k0, v0) :: rest)) : SubstOk rest := by
  intro k v hm
  have hfind := h k v (List.mem_cons_of_mem _ hm)
  by_cases hk : k0 = k
  · subst hk
    simp only [Subst.find, if_pos rfl] at hfind
    obtain rfl := Option.some.inj hfind
    obtain ⟨w, hw⟩ := exists_find_of_mem hm
    have := h k0 w (List.mem_cons_of_mem _ (Subst.find_mem hw))
    simp only [Subst.find, if_pos rfl] at this
    obtain rfl := Option.some.inj this
    exact hw
  · simpa [Subst.find, hk] using hfind

theorem find_cons_self {k0 v0 : Ident} {rest : Subst} {v : Ident}
    (h : SubstOk ((k0, v0) :: rest)) (hm : (k0, v) ∈ rest) : v = v0 := by
  have := h k0 v (List.mem_cons_of_mem _ hm)
  simp only [Subst.find, if_pos rfl] at this
  exact (Option.some.inj this).symm

theorem agree_cons_right {c rest : Subst} {k0 v0 : Ident}
    (hs : SubstOk ((k0, v0) :: rest)) (h0 : Subst.find c k0 = some v0) :
    Agree c ((k0, v0) :: rest) ↔ Agree c rest := by
  constructor
  · intro hagree k v u h1 h2
    by_cases hk : k0 = k
    · subst hk
      obtain rfl := find_cons_self hs (Subst.find_mem h2)
      rw [h0] at h1
      exact (Option.some.inj h1).symm
    · exact hagree k v u h1 (by simp [Subst.find, hk, h2])
  · intro hagree k v u h1 h2
    by_cases hk : k0 = k
    · subst hk
      rw [h0] at h1
      obtain rfl := Option.some.inj h1
      simp only [Subst.find, if_pos rfl] at h2
      exact Option.some.inj h2
    · simp only [Subst.find, if_neg hk] at h2
      exact hagree k v u h1 h2

theorem agree_insert_left {c rest : Subst} {k0 v0 : Ident}
    (hs : SubstOk ((k0, v0) :: rest)) (h0 : Subst.find c k0 = none) :
    Agree ((k0, v0) :: c) rest ↔ Agree c ((k0, v0) :: rest) := by
  constructor
  · intro hagree k v u h1 h2
    by_cases hk : k0 = k
    · subst hk
      rw [h0] at h1
      exact absurd h1 (by simp)
    · simp only [Subst.find, if_neg hk] at h2
      exact hagree k v u (by simp [Subst.find, hk, h1]) h2
  · intro hagree k v u h1 h2
    by_cases hk : k0 = k
    · subst hk
      simp only [Subst.find, if_pos rfl] at h1
      obtain rfl := Option.some.inj h1
      exact (find_cons_self hs (Subst.find_mem h2)).symm
    · simp only [Subst.find, if_neg hk] at h1
      exact hagree k v u h1 (by simp [Subst.find, hk, h2])

theorem mergeSubst_none_iff {s : Subst} (hs : SubstOk s) :
    ∀ c : Subst, (mergeSubst c s = none ↔ ¬ Agree c s) := by
  induction s with
  | nil =>
    intro c
    simp only [mergeSubst]
    constructor
    · intro h; exact absurd h (by simp)
    · intro h
      exact absurd (fun k v w h1 h2 => by simp [Subst.find] at h2) h
  | cons hd rest ih =>
    obtain ⟨k0, v0⟩ := hd
    intro c
    have hrest := substOk_tail hs
    cases h0 : Subst.find c k0 with
    | some w =>
      by_cases hw : w = v0
      · subst hw
        simp only [mergeSubst, h0, if_true]
        rw [ih hrest c, agree_cons_right hs h0]
      · constructor
        · intro _ hagree
          exact hw (hagree k0 w v0 h0 (by simp [Subst.find]))
        · intro _
          simp only [mergeSubst, h0]
          rw [if_neg hw]
    | none =>
      simp only [mergeSubst, h0]
      rw [ih hrest ((k0, v0) :: c), agree_insert_left hs h0]

/-- First-`some` choice between two lookups. -/
def optOr (a b : Option Ident) : Option Ident :=
  match a with
  | some v => some v
  | none => b

theorem mergeSubst_find {s : Subst} (hs : SubstOk s) :
    ∀ c c' : Subst, mergeSubst c s = some c' →
      ∀ k, Subst.find c' k = optOr (Subst.find c k) (Subst.find s k) := by
  induction s with
  | nil =>
    intro c c' h k
    obtain rfl : c = c' := Option.some.inj h
    cases hf : Subst.find c k <;> simp [optOr, hf, Subst.find]
  | cons hd rest ih =>
    obtain ⟨k0, v0⟩ := hd
    intro c c' h k
    have hrest := substOk_tail hs
    cases h0 : Subst.find c k0 with
    | some w =>
      simp only [mergeSubst, h0] at h
      by_cases hw : w = v0
      · subst hw
        rw [if_pos rfl] at h
        rw [ih hrest c c' h k]
        by_cases hk : k0 = k
        · subst hk
          rw [h0]
          simp [optOr, Subst.find]
        · simp [Subst.find, hk]
      · rw [if_neg hw] at h
        exact absurd h (by simp)
    | none =>
      simp only [mergeSubst, h0] at h
      rw [ih hrest _ c' h k]
      by_cases hk : k0 = k
      · subst hk
        rw [h0]
        simp [optOr, Subst.find]
      · simp [Subst.find, hk]

theorem mergeSubst_substOk {s : Subst} (hs : SubstOk s) :
    ∀ c c' : Subst, SubstOk c → mergeSubst c s = some c' → SubstOk c' := by
  induction s with
  | nil =>
    intro c c' hc h
    obtain rfl : c = c' := Option.some.inj h
    exact hc
  | cons hd rest ih =>
    obtain ⟨k0, v0⟩ := hd
    intro c c' hc h
    have hrest := substOk_tail hs
    cases h0 : Subst.find c k0 with
    | some w =>
      simp only [mergeSubst, h0] at h
      by_cases hw : w = v0
      · subst hw
        rw [if_pos rfl] at h
        exact ih hrest c c' hc h
      · rw [if_neg hw] at h
        exact absurd h (by simp)
    | none =>
      simp only [mergeSubst, h0] at h
      exact ih hrest _ c' (substOk_cons hc h0) h

theorem mergeSubst_agree {s : Subst} (hs : SubstOk s) {c c' : Subst}
    (h : mergeSubst c s = some c') : Agree c s := by
  by_contra hna
  rw [← mergeSubst_none_iff hs c] at hna
  rw [hna] at h
  exact absurd h (by simp)

/-- After a successful merge, agreement with the merged substitution is
agreement with both inputs. -/
theorem agree_merged_iff {s : Subst} (hs : SubstOk s) {c c' : Subst}
    (h : mergeSubst c s = some c') (t : Subst) :
    Agree c' t ↔ Agree c t ∧ Agree s t := by
  have hcs := mergeSubst_agree hs h
  have hfind := mergeSubst_find hs c c' h
  constructor
  · intro ha
    refine ⟨?_, ?_⟩
    · intro k v w h1 h2
      have hv : Subst.find c' k = some v := by
        rw [hfind k, h1]
        rfl
      exact ha k v w hv h2
    · intro k v w h1 h2
      cases h0 : Subst.find c k with
      | some u =>
        have huv : u = v := hcs k u v h0 h1
        subst huv
        have hv : Subst.find c' k = some u := by
          rw [hfind k, h0]
          rfl
        exact ha k u w hv h2
      | none =>
        have hv : Subst.find c' k = some v := by
          rw [hfind k, h0]
          simpa [optOr] using h1
        exact ha k v w hv h2
  · rintro ⟨hct, hst⟩ k v w h1 h2
    rw [hfind k] at h1
    cases h0 : Subst.find c k with
    | some u =>
      rw [h0] at h1
      simp only [optOr] at h1
      rw [← Option.some.inj h1]
      exact hct k u w h0 h2
    | none =>
      rw [h0] at h1
      simp only [optOr] at h1
      exact hst k v w h1 h2

/-- All per-premise substitutions of a combination pairwise agree. -/
def PairwiseAgree (L : List (Fact × Subst)) : Prop :=
  ∀ x ∈ L, ∀ y ∈ L, Agree x.2 y.2

theorem mergeComboAux_isSome_iff :
    ∀ (L : List (Fact × Subst)) (c : Subst), SubstOk c → (∀ x ∈ L, SubstOk x.2) →
      ((mergeComboAux c L).isSome ↔ ((∀ x ∈ L, Agree c x.2) ∧ PairwiseAgree L)) := by
  intro L
  induction L with
  | nil =>
    intro c _ _
    simp [mergeComboAux, PairwiseAgree]
  | cons hd rest ih =>
    obtain ⟨f, s⟩ := hd
    intro c hc hL
    have hs : SubstOk s := hL (f, s) (List.mem_cons_self _ _)
    have hrest : ∀ x ∈ rest, SubstOk x.2 := fun x hx => hL x (List.mem_cons_of_mem _ hx)
    simp only [mergeComboAux]
    cases hm : mergeSubst c s with
    | none =>
      have hna := (mergeSubst_none_iff hs c).1 hm
      simp only [Option.isSome_none, Bool.false_eq_true, false_iff]
      rintro ⟨hall, _⟩
      exact hna (hall (f, s) (List.mem_cons_self _ _))
    | some c' =>
      have hcs := mergeSubst_agree hs hm
      have hc' := mergeSubst_substOk hs c c' hc hm
      rw [ih c' hc' hrest]
      have hiff : ∀ t, Agree c' t ↔ Agree c t ∧ Agree s t :=
        agree_merged_iff hs hm
      constructor
      · rintro ⟨hall, hpw⟩
        refine ⟨?_, ?_⟩
        · intro x hx
          rcases List.mem_cons.1 hx with rfl | hx
          · exact hcs
          · exact ((hiff x.2).1 (hall x hx)).1
        · intro x hx y hy
          rcases List.mem_cons.1 hx with rfl | hx <;>
            rcases List.mem_cons.1 hy with rfl | hy
          · exact agree_refl _
          · exact ((hiff y.2).1 (hall y hy)).2
          · exact agree_symm ((hiff x.2).1 (hall x hx)).2
          · exact hpw x hx y hy
      · rintro ⟨hall, hpw⟩
        refine ⟨?_, ?_⟩
        · intro x hx
          refine (hiff x.2).2 ⟨hall x (List.mem_cons_of_mem _ hx), ?_⟩
          exact hpw (f, s) (List.mem_cons_self _ _) x (List.mem_cons_of_mem _ hx)
        · intro x hx y hy
          exact hpw x (List.mem_cons_of_mem _ hx) y (List.mem_cons_of_mem _ hy)

/-- The combination-rejection criterion of the claim: the sequential merge
of a combination's substitutions fails exactly when two of them bind the
same variable name to different values. -/
theorem mergeCombo_eq_none_iff {L : List (Fact × Subst)}
    (hL : ∀ x ∈ L, SubstOk x.2) :
    mergeCombo L = none ↔
      ∃ x ∈ L, ∃ y ∈ L, ∃ k v w,
        Subst.find x.2 k = some v ∧ Subst.find y.2 k = some w ∧ v ≠ w := by
  have h := mergeComboAux_isSome_iff L [] substOk_nil hL
  rw [mergeCombo]
  constructor
  · intro hnone
    rw [hnone] at h
    simp only [Option.isSome_none, Bool.false_eq_true, false_iff] at h
    push_neg at h
    have := h (fun x _ => agree_nil_left x.2)
    simp only [PairwiseAgree] at this
    push_neg at this
    obtain ⟨x, hx, y, hy, hna⟩ := this
    simp only [Agree] at hna
    push_neg at hna
    obtain ⟨k, v, w, h1, h2, hne⟩ := hna
    exact ⟨x, hx, y, hy, k, v, w, h1, h2, hne⟩
  · rintro ⟨x, hx, y, hy, k, v, w, h1, h2, hne⟩
    cases hm : mergeComboAux [] L with
    | none => rfl
    | some c =>
      rw [hm] at h
      simp only [Option.isSome_some, true_iff] at h
      exact absurd (h.2 x hx y hy k v w h1 h2) hne

/-- A successful `unify_proposition` either returns the substitution
unchanged or prepends one fresh binding whose key and value are drawn from
the two identifiers. -/
theorem unify_proposition_cases {p f : Proposition} {s s' : Subst}
    (h : unify_proposition p f s = some s') :
    s' = s ∨ ∃ x y, (x = p.identifier ∨ x = f.identifier) ∧
      (y = p.identifier ∨ y = f.identifier) ∧
      Subst.find s x = none ∧ s' = (x, y) :: s := by
  unfold unify_proposition at h
  by_cases h1 : p.is_variable = true
  · rw [if_pos h1] at h
    split at h
    · split at h
      · exact Or.inl (Option.some.inj h).symm
      · exact absurd h (by simp)
    · rename_i hf
      exact Or.inr ⟨p.identifier, f.identifier, Or.inl rfl, Or.inr rfl, hf,
        (Option.some.inj h).symm⟩
  · rw [if_neg h1] at h
    by_cases h2 : f.is_variable = true
    · rw [if_pos h2] at h
      split at h
      · split at h
        · exact Or.inl (Option.some.inj h).symm
        · exact absurd h (by simp)
      · rename_i hf
        exact Or.inr ⟨f.identifier, p.identifier, Or.inr rfl, Or.inl rfl, hf,
          (Option.some.inj h).symm⟩
    · rw [if_neg h2] at h
      by_cases he : p.identifier = f.identifier
      · rw [if_pos he] at h
        exact Or.inl (Option.some.inj h).symm
      · rw [if_neg he] at h
        exact absurd h (by simp)

theorem substOk_unify_proposition {p f : Proposition} {s s' : Subst}
    (hs : SubstOk s) (h : unify_proposition p f s = some s') : SubstOk s' := by
  rcases unify_proposition_cases h with rfl | ⟨x, y, _, _, hfind, rfl⟩
  · exact hs
  · exact substOk_cons hs hfind

theorem substOk_unify_svo_clause {p f : SVOClause} {s s' : Subst}
    (hs : SubstOk s) (h : unify_svo_clause p f s = some s') : SubstOk s' := by
  unfold unify_svo_clause at h
  split at h
  · exact absurd h (by simp)
  · rename_i s1 hm1
    split at h
    · exact absurd h (by simp)
    · rename_i s2 hm2
      exact substOk_unify_proposition
        (substOk_unify_proposition (substOk_unify_proposition hs hm1) hm2) h

theorem substOk_unify_classification_edge {p f : ClassificationEdge} {s s' : Subst}
    (hs : SubstOk s) (h : unify_classification_edge p f s = some s') : SubstOk s' := by
  unfold unify_classification_edge at h
  split at h
  · exact absurd h (by simp)
  · rename_i s1 hm1
    exact substOk_unify_proposition (substOk_unify_proposition hs hm1) h

theorem substOk_unifyFacts {p f : Fact} {s s' : Subst}
    (hs : SubstOk s) (h : unifyFacts p f s = some s') : SubstOk s' := by
  cases p <;> cases f <;> simp only [unifyFacts] at h <;>
    first
      | exact absurd h (by simp)
      | exact substOk_unify_proposition hs h
      | exact substOk_unify_svo_clause hs h
      | exact substOk_unify_classification_edge hs h

theorem substOk_unify {p f : Fact} {s s' : Subst}
    (hs : SubstOk s) (h : unify p f s = some s') : SubstOk s' :=
  substOk_unifyFacts hs h

/-- Membership characterization of `apply_rule`. -/
theorem mem_apply_rule {rule : Rule} {context : Context} {d : Fact} :
    d ∈ apply_rule rule context ↔
      ((rule.premises.map (premiseMatches context.facts)).any
          fun m => decide (m = ∅)) = false ∧
        ∃ combination ∈ combosOf (rule.premises.map (premiseMatches context.facts)),
          ∃ s, mergeCombo combination = some s ∧
            d = apply_substitution rule.conclusion s ∧ d ∉ context.facts := by
  unfold apply_rule
  by_cases h : (rule.premises.map (premiseMatches context.facts)).any
      fun m => decide (m = ∅)
  · simp [h]
  · rw [Bool.not_eq_true] at h
    simp only [h, Bool.false_eq_true, if_false, Finset.mem_biUnion]
    constructor
    · rintro ⟨combination, hc, hd⟩
      cases hm : mergeCombo combination with
      | none => simp [hm] at hd
      | some s =>
        simp only [hm] at hd
        by_cases hin : apply_substitution rule.conclusion s ∈ context.facts
        · simp [hin] at hd
        · rw [if_neg hin, Finset.mem_singleton] at hd
          subst hd
          exact ⟨trivial, combination, hc, s, hm, rfl, hin⟩
    · rintro ⟨-, combination, hc, s, hm, rfl, hnotin⟩
      refine ⟨combination, hc, ?_⟩
      simp [hm, hnotin]

/-! ## Fixpoint driver, query evaluation and program evaluation
(`fixpoint`, `evaluate_query`, `eval_program`, interpreter.py 326-477) -/

/-- Is this fact a classification edge (`isinstance(f, ClassificationEdge)`)? -/
def isClsFact : Fact → Bool
  | .cls _ => true
  | _ => false

/-- The classification edges among a set of facts. -/
def edgesOfFacts (facts : Finset Fact) : Finset ClassificationEdge :=
  facts.biUnion fun f =>
    match f with
    | .cls e => {e}
    | _ => ∅

/-- Step 1 of a round (interpreter.py 345-347): the closure of the
currently known classification edges. -/
def roundClosed (context : Context) : Finset ClassificationEdge :=
  compute_classification_closure context.classification_edges

/-- Step 1 of a round, continued (interpreter.py 349-352): replace the
classification-edge subset of the fact set with the closure result. -/
def roundFacts1 (context : Context) : Finset Fact :=
  context.facts.filter (fun f => isClsFact f = false) ∪
    (roundClosed context).image Fact.cls

/-- The context after the closure update of a round
(interpreter.py 349-353). -/
def roundContext1 (context : Context) : Context :=
  { facts := roundFacts1 context, classification_edges := roundClosed context,
    rules := context.rules, verb_lexicon := context.verb_lexicon }

/-- Step 2 of a round (interpreter.py 355-359): run every rule against the
closure-updated context and union the newly derivable facts. -/
def roundNewFacts (context : Context) : Finset Fact :=
  context.rules.foldl (fun acc r => acc ∪ apply_rule r (roundContext1 context)) ∅

/-- The context entering the next round (interpreter.py 365-371): add the
new facts, tracking those that are classification edges. -/
def roundNext (context : Context) : Context :=
  { facts := roundFacts1 context ∪ roundNewFacts context,
    classification_edges := roundClosed context ∪ edgesOfFacts (roundNewFacts context),
    rules := context.rules, verb_lexicon := context.verb_lexicon }

/-- One-or-more rounds of `fixpoint` (interpreter.py 344-371) with explicit
fuel: recompute the closure, replace the edge subset of the fact set, run
every rule, stop when nothing new was derived, else add the new facts (and
their edges) and repeat.  `none` models a run that would need more rounds
than the given fuel. -/
def fixpointAux : Nat → Context → Option Context
  | 0, _ => none
  | fuel + 1, context =>
    if roundNewFacts context = ∅ then some (roundContext1 context)
    else fixpointAux fuel (roundNext context)

/-! ### Identifier bookkeeping used to bound the fixpoint loop -/

/-- Identifiers of an edge. -/
def edgeNames (e : ClassificationEdge) : Finset Ident := {e.subtype, e.supertype}

/-- Identifiers of a fact. -/
def Fact.names : Fact → Finset Ident
  | .prop p => {p.identifier}
  | .svo c => {c.subject, c.verb, c.object}
  | .cls e => edgeNames e

/-- Identifiers of a fact set. -/
def namesF (s : Finset Fact) : Finset Ident := s.biUnion Fact.names

/-- Identifiers of an edge set. -/
def namesE (s : Finset ClassificationEdge) : Finset Ident := s.biUnion edgeNames

/-- Identifiers of a rule. -/
def Rule.names (r : Rule) : Finset Ident :=
  r.conclusion.names ∪ r.premises.foldr (fun p acc => p.names ∪ acc) ∅

/-- Identifiers of a rule list. -/
def rulesNames (rs : List Rule) : Finset Ident :=
  rs.foldr (fun r acc => r.names ∪ acc) ∅

/-- Identifiers anywhere in a context. -/
def ctxNames (context : Context) : Finset Ident :=
  namesF context.facts ∪ namesE context.classification_edges ∪
    rulesNames context.rules

/-- Both boolean flags. -/
def boolUniv : Finset Bool := {false, true}

/-- Every fact whose identifiers come from `N`: finite universe bounding
the fact set of the fixpoint loop. -/
def factUniverse (N : Finset Ident) : Finset Fact :=
  (N ×ˢ boolUniv).image (fun p => Fact.prop ⟨p.1, p.2⟩) ∪
  ((N ×ˢ boolUniv) ×ˢ (N ×ˢ boolUniv) ×ˢ (N ×ˢ boolUniv)).image
    (fun p => Fact.svo ⟨p.1.1, p.1.2, p.2.1.1, p.2.1.2, p.2.2.1, p.2.2.2⟩) ∪
  ((N ×ˢ boolUniv) ×ˢ (N ×ˢ boolUniv)).image
    (fun p => Fact.cls ⟨p.1.1, p.1.2, p.2.1, p.2.2⟩)

/-- `fixpoint` (interpreter.py 326-373): the unbounded `while True` loop,
run with fuel proved sufficient below (`fixpoint_initContext_some`). -/
def fixpoint (context : Context) : Option Context :=
  fixpointAux ((factUniverse (ctxNames context)).card + 1) context

/-- `evaluate_query` (interpreter.py 376-408): `"⊤"` iff the query
expression unifies, from the empty substitution, with some fact. -/
def evaluate_query (query : Query) (context : Context) : String :=
  if (context.facts.filter fun f => (unify query.expression f []).isSome).Nonempty
  then "⊤" else "?"

/-- The context built by `eval_program` (interpreter.py 456-465) from the
asserted facts and the rule list: the edge subset is exactly the
classification edges among the facts. -/
def initContext (assertions : Finset Fact) (rules : List Rule)
    (verb_lexicon : Finset Ident) : Context :=
  { facts := assertions,
    classification_edges := edgesOfFacts assertions,
    rules := rules,
    verb_lexicon := verb_lexicon }

/-- `eval_program` (interpreter.py 411-477): bucket the statements, build
the context, run the fixpoint, answer the queries in source order.
`none` stands for a fixpoint loop that does not terminate (proved
impossible below). -/
def eval_program (ast : List Node) : Option (List String) :=
  let verb_declarations := ast.filterMap fun n =>
    match n with | .verbDecl v => some v | _ => none
  let assertions := ast.filterMap fun n =>
    match n with | .fact f => some f | _ => none
  let rules := ast.filterMap fun n =>
    match n with | .rule r => some r | _ => none
  let queries := ast.filterMap fun n =>
    match n with | .query q => some q | _ => none
  let verb_lexicon := verb_declarations.foldl (fun acc v => insert v acc) ∅
  let context := initContext assertions.toFinset rules verb_lexicon
  match fixpoint context with
  | some final_context => some (queries.map fun q => evaluate_query q final_context)
  | none => none

/-! ### Name bounds and termination of the fixpoint loop -/

theorem mem_factUniverse_of_names {N : Finset Ident} {f : Fact}
    (h : f.names ⊆ N) : f ∈ factUniverse N := by
  have hb : ∀ b : Bool, b ∈ boolUniv := by
    intro b
    cases b <;> simp [boolUniv]
  cases f with
  | prop p =>
    simp only [Fact.names, Finset.singleton_subset_iff] at h
    apply Finset.mem_union_left
    apply Finset.mem_union_left
    exact Finset.mem_image.2 ⟨(p.identifier, p.is_variable),
      Finset.mem_product.2 ⟨h, hb _⟩, rfl⟩
  | svo c =>
    simp only [Fact.names, Finset.insert_subset_iff, Finset.singleton_subset_iff] at h
    apply Finset.mem_union_left
    apply Finset.mem_union_right
    refine Finset.mem_image.2 ⟨((c.subject, c.subject_is_var),
      (c.verb, c.verb_is_var), (c.object, c.object_is_var)), ?_, rfl⟩
    simp only [Finset.mem_product]
    exact ⟨⟨h.1, hb _⟩, ⟨h.2.1, hb _⟩, h.2.2, hb _⟩
  | cls e =>
    simp only [Fact.names, edgeNames, Finset.insert_subset_iff,
      Finset.singleton_subset_iff] at h
    apply Finset.mem_union_right
    refine Finset.mem_image.2 ⟨((e.subtype, e.subtype_is_var),
      (e.supertype, e.supertype_is_var)), ?_, rfl⟩
    simp only [Finset.mem_product]
    exact ⟨⟨h.1, hb _⟩, h.2, hb _⟩

theorem names_subset_namesF {s : Finset Fact} {f : Fact} (h : f ∈ s) :
    f.names ⊆ namesF s := fun x hx => Finset.mem_biUnion.2 ⟨f, h, hx⟩

theorem facts_subset_factUniverse {s : Finset Fact} {N : Finset Ident}
    (h : namesF s ⊆ N) : s ⊆ factUniverse N := fun f hf =>
  mem_factUniverse_of_names ((names_subset_namesF hf).trans h)

theorem namesF_mono {s t : Finset Fact} (h : s ⊆ t) : namesF s ⊆ namesF t := by
  intro x hx
  obtain ⟨f, hf, hxf⟩ := Finset.mem_biUnion.1 hx
  exact Finset.mem_biUnion.2 ⟨f, h hf, hxf⟩

theorem namesE_mono {s t : Finset ClassificationEdge} (h : s ⊆ t) :
    namesE s ⊆ namesE t := by
  intro x hx
  obtain ⟨e, he, hxe⟩ := Finset.mem_biUnion.1 hx
  exact Finset.mem_biUnion.2 ⟨e, h he, hxe⟩

theorem namesF_union (s t : Finset Fact) :
    namesF (s ∪ t) = namesF s ∪ namesF t := by
  ext x
  simp only [namesF, Finset.mem_biUnion, Finset.mem_union]
  constructor
  · rintro ⟨f, hf | hf, hx⟩
    · exact Or.inl ⟨f, hf, hx⟩
    · exact Or.inr ⟨f, hf, hx⟩
  · rintro (⟨f, hf, hx⟩ | ⟨f, hf, hx⟩)
    · exact ⟨f, Or.inl hf, hx⟩
    · exact ⟨f, Or.inr hf, hx⟩

theorem namesE_union (s t : Finset ClassificationEdge) :
    namesE (s ∪ t) = namesE s ∪ namesE t := by
  ext x
  simp only [namesE, Finset.mem_biUnion, Finset.mem_union]
  constructor
  · rintro ⟨e, he | he, hx⟩
    · exact Or.inl ⟨e, he, hx⟩
    · exact Or.inr ⟨e, he, hx⟩
  · rintro (⟨e, he, hx⟩ | ⟨e, he, hx⟩)
    · exact ⟨e, Or.inl he, hx⟩
    · exact ⟨e, Or.inr he, hx⟩

theorem mem_edgesOfFacts {s : Finset Fact} {e : ClassificationEdge} :
    e ∈ edgesOfFacts s ↔ Fact.cls e ∈ s := by
  simp only [edgesOfFacts, Finset.mem_biUnion]
  constructor
  · rintro ⟨f, hf, he⟩
    cases f with
    | cls e' =>
      simp only [Finset.mem_singleton] at he
      subst he
      exact hf
    | prop _ => simp at he
    | svo _ => simp at he
  · intro h
    exact ⟨Fact.cls e, h, by simp⟩

theorem namesE_edgesOfFacts (s : Finset Fact) :
    namesE (edgesOfFacts s) ⊆ namesF s := by
  intro x hx
  obtain ⟨e, he, hxe⟩ := Finset.mem_biUnion.1 hx
  refine Finset.mem_biUnion.2 ⟨Fact.cls e, mem_edgesOfFacts.1 he, ?_⟩
  simpa [Fact.names] using hxe

theorem namesE_closure (E : Finset ClassificationEdge) :
    namesE (compute_classification_closure E) ⊆ namesE E := by
  intro x hx
  obtain ⟨e, he, hxe⟩ := Finset.mem_biUnion.1 hx
  have heU := compute_classification_closure_subset_edgeUniverse E he
  obtain ⟨a, ha, ha1, _⟩ := mem_edgeUniverse_subtype heU
  obtain ⟨b, hb, hb1, _⟩ := mem_edgeUniverse_supertype heU
  simp only [edgeNames, Finset.mem_insert, Finset.mem_singleton] at hxe
  rcases hxe with rfl | rfl
  · exact Finset.mem_biUnion.2 ⟨a, ha, by simp [edgeNames, ha1]⟩
  · exact Finset.mem_biUnion.2 ⟨b, hb, by simp [edgeNames, hb1]⟩

theorem mem_foldl_union {rs : List Rule} {context : Context} {d : Fact} :
    ∀ init : Finset Fact,
      (d ∈ rs.foldl (fun acc r => acc ∪ apply_rule r context) init ↔
        d ∈ init ∨ ∃ r ∈ rs, d ∈ apply_rule r context) := by
  induction rs with
  | nil => intro init; simp
  | cons r rest ih =>
    intro init
    simp only [List.foldl_cons, ih (init ∪ apply_rule r context),
      Finset.mem_union, List.mem_cons]
    constructor
    · rintro ((h | h) | ⟨r', hr', h⟩)
      · exact Or.inl h
      · exact Or.inr ⟨r, Or.inl rfl, h⟩
      · exact Or.inr ⟨r', Or.inr hr', h⟩
    · rintro (h | ⟨r', rfl | hr', h⟩)
      · exact Or.inl (Or.inl h)
      · exact Or.inl (Or.inr h)
      · exact Or.inr ⟨r', hr', h⟩

theorem mem_foldr_names {L : List Fact} {p : Fact} (h : p ∈ L) :
    p.names ⊆ L.foldr (fun q acc => q.names ∪ acc) ∅ := by
  induction L with
  | nil => simp at h
  | cons q rest ih =>
    simp only [List.foldr_cons]
    rcases List.mem_cons.1 h with rfl | h
    · exact Finset.subset_union_left
    · exact (ih h).trans Finset.subset_union_right

theorem premise_names_subset {r : Rule} {p : Fact} (h : p ∈ r.premises) :
    p.names ⊆ r.names :=
  (mem_foldr_names h).trans Finset.subset_union_right

theorem rule_names_subset {rs : List Rule} {r : Rule} (h : r ∈ rs) :
    r.names ⊆ rulesNames rs := by
  induction rs with
  | nil => simp at h
  | cons q rest ih =>
    simp only [rulesNames, List.foldr_cons]
    rcases List.mem_cons.1 h with rfl | h
    · exact Finset.subset_union_left
    · exact (ih h).trans Finset.subset_union_right

theorem substVal_mem (s : Subst) (x : Ident) (b : Bool) :
    substVal s x b ∈ insert x (Subst.values s) := by
  unfold substVal
  by_cases hb : b = true
  · rw [if_pos hb]
    cases hf : Subst.find s x with
    | some v => simp [Subst.find_values hf]
    | none => simp
  · rw [if_neg hb]
    simp

theorem apply_substitution_names (f : Fact) (s : Subst) :
    (apply_substitution f s).names ⊆ f.names ∪ Subst.values s := by
  cases f with
  | prop p =>
    intro x hx
    simp only [apply_substitution, Fact.names, Finset.mem_singleton] at hx
    subst hx
    have := substVal_mem s p.identifier p.is_variable
    simp only [Finset.mem_insert] at this
    rcases this with h | h
    · exact Finset.mem_union_left _ (by simp [Fact.names, h])
    · exact Finset.mem_union_right _ h
  | svo c =>
    intro x hx
    simp only [apply_substitution, Fact.names, Finset.mem_insert,
      Finset.mem_singleton] at hx
    rcases hx with rfl | rfl | rfl
    · have := substVal_mem s c.subject c.subject_is_var
      simp only [Finset.mem_insert] at this
      rcases this with h | h
      · exact Finset.mem_union_left _ (by simp [Fact.names, h])
      · exact Finset.mem_union_right _ h
    · have := substVal_mem s c.verb c.verb_is_var
      simp only [Finset.mem_insert] at this
      rcases this with h | h
      · exact Finset.mem_union_left _ (by simp [Fact.names, h])
      · exact Finset.mem_union_right _ h
    · have := substVal_mem s c.object c.object_is_var
      simp only [Finset.mem_insert] at this
      rcases this with h | h
      · exact Finset.mem_union_left _ (by simp [Fact.names, h])
      · exact Finset.mem_union_right _ h
  | cls e =>
    intro x hx
    simp only [apply_substitution, Fact.names, edgeNames, Finset.mem_insert,
      Finset.mem_singleton] at hx
    rcases hx with rfl | rfl
    · have := substVal_mem s e.subtype e.subtype_is_var
      simp only [Finset.mem_insert] at this
      rcases this with h | h
      · exact Finset.mem_union_left _ (by simp [Fact.names, edgeNames, h])
      · exact Finset.mem_union_right _ h
    · have := substVal_mem s e.supertype e.supertype_is_var
      simp only [Finset.mem_insert] at this
      rcases this with h | h
      · exact Finset.mem_union_left _ (by simp [Fact.names, edgeNames, h])
      · exact Finset.mem_union_right _ h

theorem unify_proposition_values {p f : Proposition} {s s' : Subst}
    (h : unify_proposition p f s = some s') :
    Subst.values s' ⊆ Subst.values s ∪ {p.identifier, f.identifier} := by
  rcases unify_proposition_cases h with rfl | ⟨x, y, _, hy, _, rfl⟩
  · exact Finset.subset_union_left
  · intro z hz
    simp only [Subst.values, Finset.mem_insert] at hz
    rcases hz with rfl | hz
    · rcases hy with rfl | rfl
      · exact Finset.mem_union_right _ (by simp)
      · exact Finset.mem_union_right _ (by simp)
    · exact Finset.mem_union_left _ hz

theorem unifyFacts_values {p f : Fact} {s s' : Subst}
    (h : unifyFacts p f s = some s') :
    Subst.values s' ⊆ Subst.values s ∪ p.names ∪ f.names := by
  cases p with
  | prop pp =>
    cases f with
    | prop fp =>
      simp only [unifyFacts] at h
      refine (unify_proposition_values h).trans ?_
      intro z hz
      simp only [Finset.mem_union, Finset.mem_insert, Finset.mem_singleton] at hz ⊢
      rcases hz with hz | rfl | rfl
      · exact Or.inl (Or.inl hz)
      · exact Or.inl (Or.inr (by simp [Fact.names]))
      · exact Or.inr (by simp [Fact.names])
    | svo _ => simp only [unifyFacts] at h; exact absurd h (by simp)
    | cls _ => simp only [unifyFacts] at h; exact absurd h (by simp)
  | svo pc =>
    cases f with
    | prop _ => simp only [unifyFacts] at h; exact absurd h (by simp)
    | cls _ => simp only [unifyFacts] at h; exact absurd h (by simp)
    | svo fc =>
      simp only [unifyFacts] at h
      unfold unify_svo_clause at h
      split at h
      · exact absurd h (by simp)
      · rename_i s1 hm1
        split at h
        · exact absurd h (by simp)
        · rename_i s2 hm2
          have v1 := unify_proposition_values hm1
          have v2 := unify_proposition_values hm2
          have v3 := unify_proposition_values h
          intro z hz
          have hz3 := v3 hz
          simp only [Finset.mem_union, Finset.mem_insert, Finset.mem_singleton]
            at hz3
          rcases hz3 with hz3 | rfl | rfl
          · have hz2 := v2 hz3
            simp only [Finset.mem_union, Finset.mem_insert, Finset.mem_singleton]
              at hz2
            rcases hz2 with hz2 | rfl | rfl
            · have hz1 := v1 hz2
              simp only [Finset.mem_union, Finset.mem_insert,
                Finset.mem_singleton] at hz1
              rcases hz1 with hz1 | rfl | rfl
              · exact Finset.mem_union_left _ (Finset.mem_union_left _ hz1)
              · exact Finset.mem_union_left _
                  (Finset.mem_union_right _ (by simp [Fact.names]))
              · exact Finset.mem_union_right _ (by simp [Fact.names])
            · exact Finset.mem_union_left _
                (Finset.mem_union_right _ (by simp [Fact.names]))
            · exact Finset.mem_union_right _ (by simp [Fact.names])
          · exact Finset.mem_union_left _
              (Finset.mem_union_right _ (by simp [Fact.names]))
          · exact Finset.mem_union_right _ (by simp [Fact.names])
  | cls pe =>
    cases f with
    | prop _ => simp only [unifyFacts] at h; exact absurd h (by simp)
    | svo _ => simp only [unifyFacts] at h; exact absurd h (by simp)
    | cls fe =>
      simp only [unifyFacts] at h
      unfold unify_classification_edge at h
      split at h
      · exact absurd h (by simp)
      · rename_i s1 hm1
        have v1 := unify_proposition_values hm1
        have v2 := unify_proposition_values h
        intro z hz
        have hz2 := v2 hz
        simp only [Finset.mem_union, Finset.mem_insert, Finset.mem_singleton]
          at hz2
        rcases hz2 with hz2 | rfl | rfl
        · have hz1 := v1 hz2
          simp only [Finset.mem_union, Finset.mem_insert, Finset.mem_singleton]
            at hz1
          rcases hz1 with hz1 | rfl | rfl
          · exact Finset.mem_union_left _ (Finset.mem_union_left _ hz1)
          · exact Finset.mem_union_left _
              (Finset.mem_union_right _ (by simp [Fact.names, edgeNames]))
          · exact Finset.mem_union_right _ (by simp [Fact.names, edgeNames])
        · exact Finset.mem_union_left _
            (Finset.mem_union_right _ (by simp [Fact.names, edgeNames]))
        · exact Finset.mem_union_right _ (by simp [Fact.names, edgeNames])

theorem unify_values {p f : Fact} {s s' : Subst} (h : unify p f s = some s') :
    Subst.values s' ⊆ Subst.values s ∪ p.names ∪ f.names := by
  unfold unify at h
  refine (unifyFacts_values h).trans ?_
  intro z hz
  simp only [Finset.mem_union] at hz ⊢
  rcases hz with (hz | hz) | hz
  · exact Or.inl (Or.inl hz)
  · have := apply_substitution_names p s hz
    simp only [Finset.mem_union] at this
    rcases this with h1 | h1
    · exact Or.inl (Or.inr h1)
    · exact Or.inl (Or.inl h1)
  · have := apply_substitution_names f s hz
    simp only [Finset.mem_union] at this
    rcases this with h1 | h1
    · exact Or.inr h1
    · exact Or.inl (Or.inl h1)

theorem mergeSubst_values {s : Subst} :
    ∀ c c' : Subst, mergeSubst c s = some c' →
      Subst.values c' ⊆ Subst.values c ∪ Subst.values s := by
  induction s with
  | nil =>
    intro c c' h
    obtain rfl : c = c' := Option.some.inj h
    exact Finset.subset_union_left
  | cons hd rest ih =>
    obtain ⟨k0, v0⟩ := hd
    intro c c' h
    cases h0 : Subst.find c k0 with
    | some w =>
      simp only [mergeSubst, h0] at h
      by_cases hw : w = v0
      · subst hw
        rw [if_pos rfl] at h
        refine (ih c c' h).trans ?_
        intro z hz
        simp only [Finset.mem_union] at hz ⊢
        rcases hz with hz | hz
        · exact Or.inl hz
        · exact Or.inr (by simp [Subst.values, hz])
      · rw [if_neg hw] at h
        exact absurd h (by simp)
    | none =>
      simp only [mergeSubst, h0] at h
      refine (ih _ c' h).trans ?_
      intro z hz
      simp only [Subst.values, Finset.mem_union, Finset.mem_insert] at hz ⊢
      rcases hz with (rfl | hz) | hz
      · exact Or.inr (by simp [Subst.values])
      · exact Or.inl hz
      · exact Or.inr (by simp [Subst.values, hz])

/-- Union of the values of all substitutions of a combination. -/
def comboValues (L : List (Fact × Subst)) : Finset Ident :=
  L.foldr (fun x acc => Subst.values x.2 ∪ acc) ∅

theorem mergeComboAux_values :
    ∀ (L : List (Fact × Subst)) (c σ : Subst), mergeComboAux c L = some σ →
      Subst.values σ ⊆ Subst.values c ∪ comboValues L := by
  intro L
  induction L with
  | nil =>
    intro c σ h
    obtain rfl : c = σ := Option.some.inj h
    exact Finset.subset_union_left
  | cons hd rest ih =>
    obtain ⟨f, s⟩ := hd
    intro c σ h
    simp only [mergeComboAux] at h
    cases hm : mergeSubst c s with
    | none => rw [hm] at h; exact absurd h (by simp)
    | some c' =>
      rw [hm] at h
      refine (ih c' σ h).trans ?_
      intro z hz
      simp only [Finset.mem_union] at hz ⊢
      rcases hz with hz | hz
      · have := mergeSubst_values c c' hm hz
        simp only [Finset.mem_union] at this
        rcases this with h1 | h1
        · exact Or.inl h1
        · exact Or.inr (Finset.mem_union_left _ h1)
      · exact Or.inr (Finset.mem_union_right _ hz)

theorem forall₂_exists_left {α β : Type} {R : α → β → Prop} {l1 : List α}
    {l2 : List β} (h : List.Forall₂ R l1 l2) {x : α} (hx : x ∈ l1) :
    ∃ y ∈ l2, R x y := by
  induction h with
  | nil => simp at hx
  | cons hR _ ih =>
    rcases List.mem_cons.1 hx with rfl | hx
    · exact ⟨_, List.mem_cons_self _ _, hR⟩
    · obtain ⟨y, hy, hRy⟩ := ih hx
      exact ⟨y, List.mem_cons_of_mem _ hy, hRy⟩

theorem comboValues_subset {L : List (Fact × Subst)} {B : Finset Ident}
    (h : ∀ x ∈ L, Subst.values x.2 ⊆ B) : comboValues L ⊆ B := by
  induction L with
  | nil => simp [comboValues]
  | cons hd rest ih =>
    simp only [comboValues, List.foldr_cons]
    apply Finset.union_subset
    · exact h hd (List.mem_cons_self _ _)
    · exact ih fun x hx => h x (List.mem_cons_of_mem _ hx)

/-- Every fact derived by a rule uses only identifiers of the known facts
and of the rule itself. -/
theorem apply_rule_names {r : Rule} {context : Context} {d : Fact}
    (h : d ∈ apply_rule r context) :
    d.names ⊆ namesF context.facts ∪ r.names := by
  obtain ⟨-, combination, hc, σ, hm, rfl, -⟩ := mem_apply_rule.1 h
  have hforall := mem_combosOf.1 hc
  have hvals : Subst.values σ ⊆ namesF context.facts ∪ r.names := by
    refine (mergeComboAux_values combination [] σ hm).trans ?_
    simp only [Subst.values, Finset.empty_union]
    apply comboValues_subset
    intro x hx
    obtain ⟨m, hmem, hxm⟩ := forall₂_exists_left hforall hx
    obtain ⟨premise, hp, rfl⟩ := List.mem_map.1 hmem
    obtain ⟨xf, xs⟩ := x
    obtain ⟨hfx, hux⟩ := mem_premiseMatches.1 hxm
    refine (unify_values hux).trans ?_
    intro z hz
    rcases Finset.mem_union.1 hz with hz | hz
    · rcases Finset.mem_union.1 hz with hz | hz
      · simp [Subst.values] at hz
      · exact Finset.mem_union_right _ (premise_names_subset hp hz)
    · exact Finset.mem_union_left _ (names_subset_namesF hfx hz)
  refine (apply_substitution_names r.conclusion σ).trans
    (Finset.union_subset ?_ hvals)
  intro z hz
  refine Finset.mem_union_right _ ?_
  simp only [Rule.names, Finset.mem_union]
  exact Or.inl hz

theorem edgesOfFacts_filter_nonCls (s : Finset Fact) :
    edgesOfFacts (s.filter fun f => isClsFact f = false) = ∅ := by
  rw [Finset.eq_empty_iff_forall_not_mem]
  intro e he
  have := mem_edgesOfFacts.1 he
  have := (Finset.mem_filter.1 this).2
  simp [isClsFact] at this

theorem edgesOfFacts_image_cls (c : Finset ClassificationEdge) :
    edgesOfFacts (c.image Fact.cls) = c := by
  ext e
  rw [mem_edgesOfFacts, Finset.mem_image]
  constructor
  · rintro ⟨e', he', he⟩
    obtain rfl : e' = e := by injection he
    exact he'
  · intro h
    exact ⟨e, h, rfl⟩

theorem edgesOfFacts_union (s t : Finset Fact) :
    edgesOfFacts (s ∪ t) = edgesOfFacts s ∪ edgesOfFacts t := by
  ext e
  simp only [mem_edgesOfFacts, Finset.mem_union]

theorem namesF_image_cls (c : Finset ClassificationEdge) :
    namesF (c.image Fact.cls) = namesE c := by
  ext x
  simp only [namesF, namesE, Finset.mem_biUnion, Finset.mem_image]
  constructor
  · rintro ⟨f, ⟨e, he, rfl⟩, hx⟩
    exact ⟨e, he, by simpa [Fact.names] using hx⟩
  · rintro ⟨e, he, hx⟩
    exact ⟨Fact.cls e, ⟨e, he, rfl⟩, by simpa [Fact.names] using hx⟩

theorem closure_idem (E : Finset ClassificationEdge) :
    compute_classification_closure (compute_classification_closure E) =
      compute_classification_closure E :=
  Finset.Subset.antisymm
    (compute_classification_closure_least _ _ (Finset.Subset.refl _)
      (compute_classification_closure_closed E))
    (compute_classification_closure_subset _)

theorem filter_nonCls_image_cls (c : Finset ClassificationEdge) :
    (c.image Fact.cls).filter (fun f => isClsFact f = false) = ∅ := by
  rw [Finset.eq_empty_iff_forall_not_mem]
  intro f hf
  obtain ⟨hi, hcls⟩ := Finset.mem_filter.1 hf
  obtain ⟨e, _, rfl⟩ := Finset.mem_image.1 hi
  simp [isClsFact] at hcls

theorem filter_nonCls_idem (s : Finset Fact) :
    (s.filter fun f => isClsFact f = false).filter (fun f => isClsFact f = false) =
      s.filter fun f => isClsFact f = false := by
  ext f
  simp only [Finset.mem_filter]
  tauto

theorem subset_roundFacts1 {context : Context}
    (hinv : context.classification_edges = edgesOfFacts context.facts) :
    context.facts ⊆ roundFacts1 context := by
  intro f hf
  cases hcls : isClsFact f with
  | false =>
    exact Finset.mem_union_left _ (Finset.mem_filter.2 ⟨hf, hcls⟩)
  | true =>
    cases f with
    | cls e =>
      refine Finset.mem_union_right _ (Finset.mem_image.2 ⟨e, ?_, rfl⟩)
      apply compute_classification_closure_subset
      rw [hinv]
      exact mem_edgesOfFacts.2 hf
    | prop _ => simp [isClsFact] at hcls
    | svo _ => simp [isClsFact] at hcls

theorem edgesOfFacts_roundFacts1 (context : Context) :
    edgesOfFacts (roundFacts1 context) = roundClosed context := by
  rw [roundFacts1, edgesOfFacts_union, edgesOfFacts_filter_nonCls,
    edgesOfFacts_image_cls, Finset.empty_union]

theorem namesF_roundFacts1 (context : Context) :
    namesF (roundFacts1 context) ⊆
      namesF context.facts ∪ namesE context.classification_edges := by
  rw [roundFacts1, namesF_union, namesF_image_cls]
  apply Finset.union_subset
  · exact (namesF_mono (Finset.filter_subset _ _)).trans Finset.subset_union_left
  · exact (namesE_closure _).trans Finset.subset_union_right

theorem mem_roundNewFacts {context : Context} {d : Fact}
    (h : d ∈ roundNewFacts context) :
    d ∉ roundFacts1 context ∧
      d.names ⊆ namesF (roundFacts1 context) ∪ rulesNames context.rules := by
  rw [roundNewFacts, mem_foldl_union] at h
  rcases h with h | ⟨r, hr, h⟩
  · simp at h
  · constructor
    · exact (mem_apply_rule.1 h).2.choose_spec.2.choose_spec.2.2
    · refine (apply_rule_names h).trans ?_
      exact Finset.union_subset Finset.subset_union_left
        ((rule_names_subset hr).trans Finset.subset_union_right)

/-- The names appearing anywhere in a context never grow across a round,
and the invariant that the edge field is the edge subset of the fact set is
preserved. -/
theorem roundNext_invariant {context : Context}
    (hinv : context.classification_edges = edgesOfFacts context.facts) :
    (roundNext context).classification_edges =
      edgesOfFacts (roundNext context).facts := by
  simp only [roundNext, edgesOfFacts_union, edgesOfFacts_roundFacts1]

theorem ctxNames_roundNext {context : Context} {N : Finset Ident}
    (hN : ctxNames context ⊆ N) : ctxNames (roundNext context) ⊆ N := by
  have hfacts : namesF context.facts ⊆ N :=
    (Finset.subset_union_left.trans Finset.subset_union_left).trans hN
  have hedges : namesE context.classification_edges ⊆ N :=
    (Finset.subset_union_right.trans Finset.subset_union_left).trans hN
  have hrules : rulesNames context.rules ⊆ N :=
    Finset.subset_union_right.trans hN
  have hfacts1 : namesF (roundFacts1 context) ⊆ N :=
    (namesF_roundFacts1 context).trans (Finset.union_subset hfacts hedges)
  have hnew : namesF (roundNewFacts context) ⊆ N := by
    intro x hx
    obtain ⟨d, hd, hxd⟩ := Finset.mem_biUnion.1 hx
    exact Finset.union_subset hfacts1 hrules ((mem_roundNewFacts hd).2 hxd)
  rw [ctxNames]
  apply Finset.union_subset (Finset.union_subset _ _) _
  · simp only [roundNext, namesF_union]
    exact Finset.union_subset hfacts1 hnew
  · simp only [roundNext, namesE_union]
    apply Finset.union_subset
    · exact (namesE_closure _).trans hedges
    · exact (namesE_edgesOfFacts _).trans hnew
  · exact hrules

theorem roundNext_facts_card {context : Context}
    (hinv : context.classification_edges = edgesOfFacts context.facts)
    (hne : roundNewFacts context ≠ ∅) :
    context.facts.card < (roundNext context).facts.card := by
  have hsub : context.facts ⊆ (roundNext context).facts :=
    (subset_roundFacts1 hinv).trans Finset.subset_union_left
  apply Finset.card_lt_card
  refine ⟨hsub, ?_⟩
  intro hle
  obtain ⟨d, hd⟩ := Finset.nonempty_iff_ne_empty.2 hne
  have hd1 : d ∉ roundFacts1 context := (mem_roundNewFacts hd).1
  have : d ∈ context.facts :=
    hle (Finset.mem_union_right _ hd)
  exact hd1 (subset_roundFacts1 hinv this)

/-- Termination of the fixpoint loop: with fuel covering the finite fact
universe, the loop reaches its natural exit, the fact set only ever grows,
and every identifier of the final fact set already appears in the initial
context. -/
theorem fixpointAux_spec (N : Finset Ident) :
    ∀ (fuel : Nat) (context : Context),
      context.classification_edges = edgesOfFacts context.facts →
      ctxNames context ⊆ N →
      (factUniverse N).card + 1 ≤ context.facts.card + fuel →
      ∃ res, fixpointAux fuel context = some res ∧
        context.facts ⊆ res.facts ∧ namesF res.facts ⊆ N ∧
        roundNewFacts res = ∅ := by
  intro fuel
  induction fuel with
  | zero =>
    intro context hinv hN hcard
    have hfacts : namesF context.facts ⊆ N :=
      (Finset.subset_union_left.trans Finset.subset_union_left).trans hN
    have := Finset.card_le_card (facts_subset_factUniverse hfacts)
    omega
  | succ n ih =>
    intro context hinv hN hcard
    by_cases hnew : roundNewFacts context = ∅
    · refine ⟨roundContext1 context, ?_, subset_roundFacts1 hinv, ?_, ?_⟩
      · simp [fixpointAux, hnew]
      · have hfacts : namesF context.facts ⊆ N :=
          (Finset.subset_union_left.trans Finset.subset_union_left).trans hN
        have hedges : namesE context.classification_edges ⊆ N :=
          (Finset.subset_union_right.trans Finset.subset_union_left).trans hN
        exact (namesF_roundFacts1 context).trans
          (Finset.union_subset hfacts hedges)
      · -- re-running a round on the exit context derives nothing new: the
        -- closure update is idempotent, so the rules see the same facts
        have hcl : roundClosed (roundContext1 context) = roundClosed context := by
          simp only [roundClosed, roundContext1]
          exact closure_idem context.classification_edges
        have hf1 : roundFacts1 (roundContext1 context) = roundFacts1 context := by
          show (roundFacts1 context).filter (fun f => isClsFact f = false) ∪
              (roundClosed (roundContext1 context)).image Fact.cls =
            roundFacts1 context
          rw [hcl]
          conv_lhs => rw [roundFacts1]
          rw [Finset.filter_union, filter_nonCls_idem, filter_nonCls_image_cls,
            Finset.union_empty]
          rfl
        have h1 : roundContext1 (roundContext1 context) = roundContext1 context := by
          conv_lhs => rw [roundContext1]
          rw [hcl, hf1]
          rfl
        have : roundNewFacts (roundContext1 context) = roundNewFacts context := by
          unfold roundNewFacts
          rw [h1]
          rfl
        rw [this, hnew]
    · have hnext := ih (roundNext context) (roundNext_invariant hinv)
        (ctxNames_roundNext hN)
        (by have := roundNext_facts_card hinv hnew; omega)
      obtain ⟨res, hres, hsub, hnames, hstable⟩ := hnext
      refine ⟨res, ?_, ?_, hnames, hstable⟩
      · simp [fixpointAux, hnew, hres]
      · exact ((subset_roundFacts1 hinv).trans Finset.subset_union_left).trans hsub

/-! ## Parser embedding (`parser.py`, `lexer.py`)

The parser is modelled as functions over the remaining token list.  The
lexer guarantees the token stream ends with an `EOF` token and `peek`
past the end returns it; modelling the stream as the remaining suffix,
`peekT [] = EOF` and `advanceT` refuses to consume `EOF`, exactly as
`Parser.peek` / `Parser.advance` behave. -/

/-- Token types (`lexer.py` `TokenType`). -/
inductive TokenType where
  | INDENT
  | NEWLINE
  | KEYWORD
  | VARIABLE
  | IDENTIFIER
  | EOF
deriving DecidableEq

/-- A token: type and value (line/column carry no parsing semantics and
are omitted; they feed only error messages). -/
structure Token where
  type : TokenType
  value : Ident
deriving DecidableEq

/-- `Parser.peek` at the current position. -/
def peekT (ts : List Token) : Token :=
  match ts with
  | [] => ⟨.EOF, []⟩
  | t :: _ => t

/-- `Parser.advance`: consume one token unless at `EOF`. -/
def advanceT (ts : List Token) : List Token :=
  match ts with
  | [] => []
  | t :: rest => if t.type = .EOF then ts else rest

/-- Parse-error kinds (`ParseError` messages, parser.py). -/
inductive ParseErr where
  | unexpectedToken
  | expectedIdent
  | undeclaredVerb
  | multipleVerbs
  | missingSubject
  | missingObject
  | missingSupertype
deriving DecidableEq

/-- `Parser.expect(KEYWORD, value)`. -/
def expectKW (ts : List Token) (v : Ident) : Except ParseErr (List Token) :=
  let t := peekT ts
  if t.type = .KEYWORD then
    if t.value = v then .ok (advanceT ts) else .error .unexpectedToken
  else .error .unexpectedToken

/-- Python `str.find`: index of the first occurrence of `v` as a contiguous
substring of `t`, or `none` (`-1` in Python). -/
def findSub (v : Ident) : Ident → Option Nat
  | [] => if v.isPrefixOf [] then some 0 else none
  | c :: rest =>
    if v.isPrefixOf (c :: rest) then some 0
    else (findSub v rest).map (· + 1)

/-- Python `v in t` for strings: substring containment. -/
def containsSub (v t : Ident) : Bool := (findSub v t).isSome

/-- Python `text.startswith('其')`: the variable-marker test used on the
split halves of a merged SVO token (parser.py 211-212). -/
def startsWithMarker : Ident → Bool
  | [] => false
  | c :: _ => c = '其'

/-- The scan of parser.py 178-188: every lexicon verb occurring as a
substring of the token text, with its first-occurrence position. -/
def findVerbs (lex : List Ident) (text : Ident) : List (Ident × Nat) :=
  lex.filterMap fun v => (findSub v text).map fun pos => (v, pos)

/-- The single-merged-token branch of `parse_svo_clause`
(parser.py 172-221): find exactly one declared verb as a substring, check
it is neither at the start nor at the end, split around the match, mark
the halves as variables iff they start with the marker. -/
def segmentSingle (lex : List Ident) (text : Ident) : Except ParseErr Fact :=
  match findVerbs lex text with
  | [] => .error .undeclaredVerb
  | [(verb_found, verb_pos)] =>
    if verb_pos = 0 then .error .missingSubject
    else if text.length ≤ verb_pos + verb_found.length then .error .missingObject
    else
      .ok (.svo ⟨text.take verb_pos,
        startsWithMarker (text.take verb_pos),
        verb_found, false,
        text.drop (verb_pos + verb_found.length),
        startsWithMarker (text.drop (verb_pos + verb_found.length))⟩)
  | _ => .error .multipleVerbs

/-- The identifier-collection loop of `parse_svo_clause`
(parser.py 157-170): gather identifier/variable tokens up to a statement
boundary, skipping other tokens (such as `INDENT`). -/
def collectIdents : List Token → List Token × List Token
  | [] => ([], [])
  | t :: rest =>
    if t.type = .NEWLINE ∨ t.type = .EOF ∨ t.type = .KEYWORD then ([], t :: rest)
    else if t.type = .IDENTIFIER ∨ t.type = .VARIABLE then
      let (ids, r) := collectIdents rest
      (t :: ids, r)
    else collectIdents rest

/-- Concatenation of token values (`''.join(...)`, parser.py 258, 268). -/
def joinVals (ts : List Token) : Ident := (ts.map Token.value).join

/-- `Parser.parse_svo_clause` (parser.py 138-278), given the already
consumed first token and the remaining stream. -/
def parse_svo_clause (lex : List Ident) (first_token : Token) (ts : List Token) :
    Except ParseErr (Fact × List Token) :=
  let collected := collectIdents ts
  let identifiers := first_token :: collected.1
  match identifiers with
  | [tok] =>
    match segmentSingle lex tok.value with
    | .error e => .error e
    | .ok f => .ok (f, collected.2)
  | _ =>
    let verb_positions :=
      (identifiers.enum.filter fun p => decide (p.2.value ∈ lex)).map Prod.fst
    match verb_positions with
    | [] => .error .undeclaredVerb
    | [verb_pos] =>
      if verb_pos = 0 then .error .missingSubject
      else if verb_pos = identifiers.length - 1 then .error .missingObject
      else
        let subject_tokens := identifiers.take verb_pos
        let verb_token := identifiers.getD verb_pos ⟨.EOF, []⟩
        let object_tokens := identifiers.drop (verb_pos + 1)
        .ok (.svo ⟨joinVals subject_tokens,
          subject_tokens.any fun t => decide (t.type = .VARIABLE),
          verb_token.value,
          decide (verb_token.type = .VARIABLE),
          joinVals object_tokens,
          object_tokens.any fun t => decide (t.type = .VARIABLE)⟩, collected.2)
    | _ => .error .multipleVerbs

/-- The supertype-collection loop of `parse_classification_edge`
(parser.py 300-321): collect identifier/variable/keyword tokens up to the
terminating `也`; a variable token anywhere marks the supertype variable. -/
def collectSupertype : List Token → List Ident × Bool × List Token
  | [] => ([], false, [])
  | t :: rest =>
    if t.type = .KEYWORD ∧ t.value = ['也'] then ([], false, t :: rest)
    else if t.type = .IDENTIFIER then
      let (ps, v, r) := collectSupertype rest
      (t.value :: ps, v, r)
    else if t.type = .VARIABLE then
      let (ps, _, r) := collectSupertype rest
      (t.value :: ps, true, r)
    else if t.type = .KEYWORD then
      let (ps, v, r) := collectSupertype rest
      (t.value :: ps, v, r)
    else ([], false, t :: rest)

/-- `Parser.parse_classification_edge` (parser.py 280-340), given the
already consumed subtype token. -/
def parse_classification_edge (first_token : Token) (ts : List Token) :
    Except ParseErr (Fact × List Token) :=
  match expectKW ts ['者'] with
  | .error e => .error e
  | .ok ts1 =>
    let collected := collectSupertype ts1
    if collected.1.isEmpty then .error .missingSupertype
    else
      match expectKW collected.2.2 ['也'] with
      | .error e => .error e
      | .ok ts3 =>
        .ok (.cls ⟨first_token.value, decide (first_token.type = .VARIABLE),
          collected.1.join, collected.2.1⟩, ts3)

/-- `Parser.parse_proposition` (parser.py 111-136). -/
def parse_proposition (ts : List Token) : Except ParseErr (Fact × List Token) :=
  match expectKW ts ['曰'] with
  | .error e => .error e
  | .ok ts1 =>
    let t := peekT ts1
    if t.type = .VARIABLE then .ok (.prop ⟨t.value, true⟩, advanceT ts1)
    else if t.type = .IDENTIFIER then .ok (.prop ⟨t.value, false⟩, advanceT ts1)
    else .error .expectedIdent

/-- `verb_lexicon.add(verb)`: the running vocabulary as a duplicate-free
list. -/
def insertVerb (lex : List Ident) (v : Ident) : List Ident :=
  if v ∈ lex then lex else v :: lex

/-- `Parser.parse_verb_declaration` (parser.py 83-109): returns the verb,
the updated lexicon and the remaining stream. -/
def parse_verb_declaration (lex : List Ident) (ts : List Token) :
    Except ParseErr (Ident × List Ident × List Token) :=
  match expectKW ts ['以'] with
  | .error e => .error e
  | .ok ts1 =>
    let verb_token := peekT ts1
    if verb_token.type = .IDENTIFIER ∨ verb_token.type = .VARIABLE then
      let verb := verb_token.value
      match expectKW (advanceT ts1) ['為'] with
      | .error e => .error e
      | .ok ts3 =>
        match expectKW ts3 ['動'] with
        | .error e => .error e
        | .ok ts4 => .ok (verb, insertVerb lex verb, ts4)
    else .error .expectedIdent

/-- `Parser.parse_expression` (parser.py 342-386): dispatch on `曰`, then
one-token lookahead for `者`; an identifier containing no declared verb
and followed by a statement boundary (`NEWLINE`, `EOF`, `乎`, `則`, `且`)
is a bare proposition; otherwise SVO segmentation. -/
def parse_expression (lex : List Ident) (ts : List Token) :
    Except ParseErr (Fact × List Token) :=
  let token := peekT ts
  if token.type = .KEYWORD ∧ token.value = ['曰'] then parse_proposition ts
  else if token.type = .IDENTIFIER ∨ token.type = .VARIABLE then
    let first_token := token
    let ts1 := advanceT ts
    let next_token := peekT ts1
    if next_token.type = .KEYWORD ∧ next_token.value = ['者'] then
      parse_classification_edge first_token ts1
    else
      let contains_verb := lex.any fun v => containsSub v first_token.value
      if contains_verb = false ∧
          (next_token.type = .NEWLINE ∨ next_token.type = .EOF ∨
            (next_token.type = .KEYWORD ∧
              (next_token.value = ['乎'] ∨ next_token.value = ['則'] ∨
                next_token.value = ['且']))) then
        .ok (.prop ⟨first_token.value, decide (first_token.type = .VARIABLE)⟩, ts1)
      else parse_svo_clause lex first_token ts1
  else .error .expectedIdent

/-! ### The parser only consumes tokens (termination of the premise loop) -/

theorem advanceT_length (ts : List Token) : (advanceT ts).length ≤ ts.length := by
  cases ts with
  | nil => simp [advanceT]
  | cons t rest =>
    simp only [advanceT]
    by_cases h : t.type = TokenType.EOF
    · rw [if_pos h]
    · rw [if_neg h]
      simp

theorem expectKW_length {ts r : List Token} {v : Ident}
    (h : expectKW ts v = .ok r) : r.length < ts.length := by
  cases ts with
  | nil =>
    simp only [expectKW, peekT] at h
    exact absurd h (by simp)
  | cons t rest =>
    simp only [expectKW, peekT] at h
    by_cases h1 : t.type = TokenType.KEYWORD
    · rw [if_pos h1] at h
      by_cases h2 : t.value = v
      · rw [if_pos h2] at h
        obtain rfl : advanceT (t :: rest) = r := by
          injection h
        simp only [advanceT]
        rw [if_neg (by rw [h1]; intro hc; cases hc)]
        simp
      · rw [if_neg h2] at h
        exact absurd h (by simp)
    · rw [if_neg h1] at h
      exact absurd h (by simp)

theorem collectIdents_length (ts : List Token) :
    (collectIdents ts).2.length ≤ ts.length := by
  induction ts with
  | nil => simp [collectIdents]
  | cons t rest ih =>
    simp only [collectIdents]
    by_cases h1 : t.type = .NEWLINE ∨ t.type = .EOF ∨ t.type = .KEYWORD
    · rw [if_pos h1]
    · rw [if_neg h1]
      by_cases h2 : t.type = .IDENTIFIER ∨ t.type = .VARIABLE
      · rw [if_pos h2]
        simpa using Nat.le_succ_of_le ih
      · rw [if_neg h2]
        exact Nat.le_succ_of_le ih

theorem collectSupertype_length (ts : List Token) :
    (collectSupertype ts).2.2.length ≤ ts.length := by
  induction ts with
  | nil => simp [collectSupertype]
  | cons t rest ih =>
    simp only [collectSupertype]
    by_cases h1 : t.type = .KEYWORD ∧ t.value = ['也']
    · rw [if_pos h1]
    · rw [if_neg h1]
      by_cases h2 : t.type = .IDENTIFIER
      · rw [if_pos h2]
        exact Nat.le_succ_of_le ih
      · rw [if_neg h2]
        by_cases h3 : t.type = .VARIABLE
        · rw [if_pos h3]
          exact Nat.le_succ_of_le ih
        · rw [if_neg h3]
          by_cases h4 : t.type = .KEYWORD
          · rw [if_pos h4]
            exact Nat.le_succ_of_le ih
          · rw [if_neg h4]

theorem parse_svo_clause_length {lex : List Ident} {first_token : Token}
    {ts r : List Token} {f : Fact}
    (h : parse_svo_clause lex first_token ts = .ok (f, r)) :
    r.length ≤ ts.length := by
  unfold parse_svo_clause at h
  simp only [] at h
  split at h
  · split at h
    · exact absurd h (by simp)
    · rename_i heq
      obtain ⟨rfl, rfl⟩ : _ ∧ (collectIdents ts).2 = r := by
        injection h with h'
        injection h' with h1 h2
        exact ⟨h1, h2⟩
      exact collectIdents_length ts
  · split at h
    · exact absurd h (by simp)
    · split at h
      · exact absurd h (by simp)
      · split at h
        · exact absurd h (by simp)
        · obtain ⟨rfl, rfl⟩ : _ ∧ (collectIdents ts).2 = r := by
            injection h with h'
            injection h' with h1 h2
            exact ⟨h1, h2⟩
          exact collectIdents_length ts
    · exact absurd h (by simp)

theorem parse_classification_edge_length {first_token : Token} {ts r : List Token}
    {f : Fact} (h : parse_classification_edge first_token ts = .ok (f, r)) :
    r.length < ts.length := by
  unfold parse_classification_edge at h
  simp only [] at h
  split at h
  · exact absurd h (by simp)
  · rename_i ts1 h1
    split at h
    · exact absurd h (by simp)
    · split at h
      · exact absurd h (by simp)
      · rename_i ts3 h3
        obtain ⟨rfl, rfl⟩ : _ ∧ ts3 = r := by
          injection h with h'
          injection h' with ha hb
          exact ⟨ha, hb⟩
        calc ts3.length < (collectSupertype ts1).2.2.length := expectKW_length h3
          _ ≤ ts1.length := collectSupertype_length ts1
          _ < ts.length := expectKW_length h1

theorem parse_proposition_length {ts r : List Token} {f : Fact}
    (h : parse_proposition ts = .ok (f, r)) : r.length < ts.length := by
  unfold parse_proposition at h
  simp only [] at h
  split at h
  · exact absurd h (by simp)
  · rename_i ts1 h1
    split at h
    · obtain ⟨rfl, rfl⟩ : _ ∧ advanceT ts1 = r := by
        injection h with h'
        injection h' with ha hb
        exact ⟨ha, hb⟩
      exact Nat.lt_of_le_of_lt (advanceT_length ts1) (expectKW_length h1)
    · split at h
      · obtain ⟨rfl, rfl⟩ : _ ∧ advanceT ts1 = r := by
          injection h with h'
          injection h' with ha hb
          exact ⟨ha, hb⟩
        exact Nat.lt_of_le_of_lt (advanceT_length ts1) (expectKW_length h1)
      · exact absurd h (by simp)

theorem peekT_cons_of_ident {ts : List Token}
    (h : (peekT ts).type = .IDENTIFIER ∨ (peekT ts).type = .VARIABLE) :
    ∃ rest, ts = peekT ts :: rest ∧ advanceT ts = rest := by
  cases ts with
  | nil => simp [peekT] at h
  | cons t rest =>
    refine ⟨rest, rfl, ?_⟩
    simp only [peekT] at h ⊢
    simp only [advanceT]
    rw [if_neg]
    rcases h with h | h <;> rw [h] <;> intro hc <;> cases hc

theorem parse_expression_length {lex : List Ident} {ts r : List Token} {f : Fact}
    (h : parse_expression lex ts = .ok (f, r)) : r.length < ts.length := by
  unfold parse_expression at h
  simp only [] at h
  by_cases h1 : (peekT ts).type = TokenType.KEYWORD ∧ (peekT ts).value = ['曰']
  · rw [if_pos h1] at h
    exact parse_proposition_length h
  · rw [if_neg h1] at h
    by_cases h2 : (peekT ts).type = TokenType.IDENTIFIER ∨
        (peekT ts).type = TokenType.VARIABLE
    · rw [if_pos h2] at h
      obtain ⟨rest, hts, hadv⟩ := peekT_cons_of_ident h2
      rw [hadv] at h
      by_cases h3 : (peekT rest).type = TokenType.KEYWORD ∧
          (peekT rest).value = ['者']
      · rw [if_pos h3] at h
        have := parse_classification_edge_length h
        rw [hts]
        simp only [List.length_cons]
        omega
      · rw [if_neg h3] at h
        by_cases h4 : (lex.any fun v => containsSub v (peekT ts).value) = false ∧
            ((peekT rest).type = TokenType.NEWLINE ∨
              (peekT rest).type = TokenType.EOF ∨
              ((peekT rest).type = TokenType.KEYWORD ∧
                ((peekT rest).value = ['乎'] ∨ (peekT rest).value = ['則'] ∨
                  (peekT rest).value = ['且'])))
        · rw [if_pos h4] at h
          obtain ⟨-, rfl⟩ : _ ∧ rest = r := by
            injection h with h'
            injection h' with ha hb
            exact ⟨ha, hb⟩
          rw [hts]
          simp
        · rw [if_neg h4] at h
          have := parse_svo_clause_length h
          rw [hts]
          simp only [List.length_cons]
          omega
    · rw [if_neg h2] at h
      exact absurd h (by simp)

theorem findSub_isSome_iff (v t : Ident) : (findSub v t).isSome ↔ v <:+: t := by
  induction t with
  | nil =>
    simp only [findSub]
    by_cases h : v.isPrefixOf []
    · rw [if_pos h]
      exact iff_of_true rfl (List.isPrefixOf_iff_prefix.1 h).isInfix
    · rw [if_neg h]
      simp only [Option.isSome_none, Bool.false_eq_true, false_iff]
      intro hc
      rw [List.infix_nil] at hc
      exact h (List.isPrefixOf_iff_prefix.2 (by simp [hc]))
  | cons c rest ih =>
    simp only [findSub]
    by_cases h : v.isPrefixOf (c :: rest)
    · rw [if_pos h]
      exact iff_of_true rfl (List.isPrefixOf_iff_prefix.1 h).isInfix
    · rw [if_neg h, List.infix_cons_iff]
      cases hq : findSub v rest with
      | none =>
        have hni := ih
        rw [hq] at hni
        simp only [Option.isSome_none, Bool.false_eq_true, false_iff] at hni
        simp only [hq, Option.map_none', Option.isSome_none, Bool.false_eq_true,
          false_iff]
        rintro (hc | hc)
        · exact h (List.isPrefixOf_iff_prefix.2 hc)
        · exact hni hc
      | some q =>
        have hsi := ih
        rw [hq] at hsi
        simp only [Option.isSome_some, true_iff] at hsi
        simp only [hq, Option.map_some', Option.isSome_some, true_iff]
        exact Or.inr hsi

theorem findSub_prefix {v t : Ident} {p : Nat} (h : findSub v t = some p) :
    v <+: t.drop p := by
  induction t generalizing p with
  | nil =>
    simp only [findSub] at h
    by_cases hp : v.isPrefixOf []
    · rw [if_pos hp] at h
      obtain rfl : (0 : Nat) = p := by injection h
      exact List.isPrefixOf_iff_prefix.1 hp
    · rw [if_neg hp] at h
      exact absurd h (by simp)
  | cons c rest ih =>
    simp only [findSub] at h
    by_cases hp : v.isPrefixOf (c :: rest)
    · rw [if_pos hp] at h
      obtain rfl : (0 : Nat) = p := by injection h
      exact List.isPrefixOf_iff_prefix.1 hp
    · rw [if_neg hp] at h
      cases hq : findSub v rest with
      | none => rw [hq] at h; exact absurd h (by simp)
      | some q =>
        rw [hq] at h
        simp only [Option.map_some'] at h
        obtain rfl : q + 1 = p := by injection h
        simpa using ih hq

theorem findSub_add_le {v t : Ident} {p : Nat} (h : findSub v t = some p) :
    p + v.length ≤ t.length := by
  induction t generalizing p with
  | nil =>
    simp only [findSub] at h
    by_cases hp : v.isPrefixOf []
    · rw [if_pos hp] at h
      obtain rfl : (0 : Nat) = p := by injection h
      have := (List.isPrefixOf_iff_prefix.1 hp).length_le
      simpa using this
    · rw [if_neg hp] at h
      exact absurd h (by simp)
  | cons c rest ih =>
    simp only [findSub] at h
    by_cases hp : v.isPrefixOf (c :: rest)
    · rw [if_pos hp] at h
      obtain rfl : (0 : Nat) = p := by injection h
      have := (List.isPrefixOf_iff_prefix.1 hp).length_le
      simpa using this
    · rw [if_neg hp] at h
      cases hq : findSub v rest with
      | none => rw [hq] at h; exact absurd h (by simp)
      | some q =>
        rw [hq] at h
        simp only [Option.map_some'] at h
        obtain rfl : q + 1 = p := by injection h
        have := ih hq
        simp only [List.length_cons]
        omega

theorem mem_findVerbs {lex : List Ident} {text v : Ident} {p : Nat} :
    (v, p) ∈ findVerbs lex text ↔ v ∈ lex ∧ findSub v text = some p := by
  simp only [findVerbs, List.mem_filterMap, Option.map_eq_some']
  constructor
  · rintro ⟨w, hw, q, hq, heq⟩
    obtain ⟨rfl, rfl⟩ : w = v ∧ q = p := by
      constructor <;> injection heq <;> simp_all
    exact ⟨hw, hq⟩
  · rintro ⟨hv, hp⟩
    exact ⟨v, hv, p, hp, rfl⟩

theorem findVerbs_eq_nil {lex : List Ident} {text : Ident}
    (h : ∀ v ∈ lex, findSub v text = none) : findVerbs lex text = [] := by
  rw [findVerbs, List.filterMap_eq_nil]
  intro v hv
  rw [h v hv]
  rfl

theorem findVerbs_eq_single {lex : List Ident} {text v : Ident} {p : Nat}
    (hnd : lex.Nodup) (hv : v ∈ lex) (hfind : findSub v text = some p)
    (hothers : ∀ w ∈ lex, w ≠ v → findSub w text = none) :
    findVerbs lex text = [(v, p)] := by
  induction lex with
  | nil => simp at hv
  | cons a rest ih =>
    obtain ⟨hna, hndr⟩ := List.nodup_cons.1 hnd
    rcases List.mem_cons.1 hv with rfl | hv
    · simp only [findVerbs, List.filterMap_cons, hfind, Option.map_some']
      have : findVerbs rest text = [] := by
        apply findVerbs_eq_nil
        intro w hw
        exact hothers w (List.mem_cons_of_mem _ hw) (fun hc => hna (hc ▸ hw))
      simpa [findVerbs] using this
    · have hne : a ≠ v := fun hc => hna (hc ▸ hv)
      have hnone := hothers a (List.mem_cons_self _ _) hne
      simp only [findVerbs, List.filterMap_cons, hnone]
      exact ih hndr hv fun w hw hwv => hothers w (List.mem_cons_of_mem _ hw) hwv

/-- The `且`-premise loop of `parse_rule` (parser.py 407-413). -/
def parsePremises (lex : List Ident) (acc : List Fact) (ts : List Token) :
    Except ParseErr (List Fact × List Token) :=
  if (peekT ts).type = .KEYWORD ∧ (peekT ts).value = ['且'] then
    match h : parse_expression lex (advanceT ts) with
    | .error e => .error e
    | .ok (p, r) => parsePremises lex (acc ++ [p]) r
  else .ok (acc, ts)
termination_by ts.length
decreasing_by
  have h1 := parse_expression_length h
  have h2 := advanceT_length ts
  omega

/-- `Parser.parse_rule` (parser.py 388-421). -/
def parse_rule (lex : List Ident) (ts : List Token) :
    Except ParseErr (Rule × List Token) :=
  match expectKW ts ['若'] with
  | .error e => .error e
  | .ok ts1 =>
    match parse_expression lex ts1 with
    | .error e => .error e
    | .ok (first, ts2) =>
      match parsePremises lex [first] ts2 with
      | .error e => .error e
      | .ok (premises, ts3) =>
        match expectKW ts3 ['則'] with
        | .error e => .error e
        | .ok ts4 =>
          match parse_expression lex ts4 with
          | .error e => .error e
          | .ok (conclusion, ts5) => .ok (⟨premises, conclusion⟩, ts5)

/-- `Parser.parse_query` (parser.py 423-441). -/
def parse_query (lex : List Ident) (ts : List Token) :
    Except ParseErr (Query × List Token) :=
  match expectKW ts ['問'] with
  | .error e => .error e
  | .ok ts1 =>
    match parse_expression lex ts1 with
    | .error e => .error e
    | .ok (expression, ts2) =>
      match expectKW ts2 ['乎'] with
      | .error e => .error e
      | .ok ts3 => .ok (⟨expression⟩, ts3)

/-- The `INDENT`/`NEWLINE` skip loop opening `parse_statement`
(parser.py 453-455). -/
def skipBoundary : List Token → List Token
  | [] => []
  | t :: rest =>
    if t.type = .INDENT ∨ t.type = .NEWLINE then skipBoundary rest else t :: rest

/-- `Parser.parse_statement` (parser.py 443-492): keyword dispatch, else a
consumed identifier with one-token lookahead choosing between a
classification edge (`者`) and SVO segmentation; `none` on `EOF`.  Returns
the statement, the (possibly grown) verb lexicon and the rest of the
stream. -/
def parse_statement (lex : List Ident) (ts : List Token) :
    Except ParseErr (Option (Node × List Ident × List Token)) :=
  let ts0 := skipBoundary ts
  let token := peekT ts0
  if token.type = .EOF then .ok none
  else if token.type = .KEYWORD then
    if token.value = ['以'] then
      match parse_verb_declaration lex ts0 with
      | .error e => .error e
      | .ok (v, lex1, r) => .ok (some (.verbDecl v, lex1, r))
    else if token.value = ['曰'] then
      match parse_proposition ts0 with
      | .error e => .error e
      | .ok (p, r) => .ok (some (.fact p, lex, r))
    else if token.value = ['若'] then
      match parse_rule lex ts0 with
      | .error e => .error e
      | .ok (ru, r) => .ok (some (.rule ru, lex, r))
    else if token.value = ['問'] then
      match parse_query lex ts0 with
      | .error e => .error e
      | .ok (q, r) => .ok (some (.query q, lex, r))
    else .error .unexpectedToken
  else if token.type = .IDENTIFIER ∨ token.type = .VARIABLE then
    let first_token := token
    let ts1 := advanceT ts0
    let next_token := peekT ts1
    if next_token.type = .KEYWORD ∧ next_token.value = ['者'] then
      match parse_classification_edge first_token ts1 with
      | .error e => .error e
      | .ok (e, r) => .ok (some (.fact e, lex, r))
    else
      match parse_svo_clause lex first_token ts1 with
      | .error e => .error e
      | .ok (c, r) => .ok (some (.fact c, lex, r))
  else .error .unexpectedToken

/-! ## Remaining helper lemmas for the claims -/

theorem fixpointAux_mono :
    ∀ (fuel : Nat) (context res : Context),
      context.classification_edges = edgesOfFacts context.facts →
      fixpointAux fuel context = some res → context.facts ⊆ res.facts := by
  intro fuel
  induction fuel with
  | zero =>
    intro context res _ h
    exact absurd h (by simp [fixpointAux])
  | succ n ih =>
    intro context res hinv h
    simp only [fixpointAux] at h
    by_cases hnew : roundNewFacts context = ∅
    · rw [if_pos hnew] at h
      obtain rfl : roundContext1 context = res := by injection h
      exact subset_roundFacts1 hinv
    · rw [if_neg hnew] at h
      have := ih (roundNext context) res (roundNext_invariant hinv) h
      exact (((subset_roundFacts1 hinv).trans Finset.subset_union_left).trans this :)

theorem fixpoint_init_some (assertions : Finset Fact) (rules : List Rule)
    (verb_lexicon : Finset Ident) :
    ∃ res, fixpoint (initContext assertions rules verb_lexicon) = some res ∧
      assertions ⊆ res.facts ∧
      namesF res.facts ⊆ namesF assertions ∪ rulesNames rules ∧
      roundNewFacts res = ∅ := by
  have hinv : (initContext assertions rules verb_lexicon).classification_edges =
      edgesOfFacts (initContext assertions rules verb_lexicon).facts := rfl
  obtain ⟨res, h1, h2, h3, h4⟩ :=
    fixpointAux_spec (ctxNames (initContext assertions rules verb_lexicon))
      ((factUniverse (ctxNames (initContext assertions rules verb_lexicon))).card + 1)
      (initContext assertions rules verb_lexicon) hinv (Finset.Subset.refl _)
      (by omega)
  refine ⟨res, h1, h2, h3.trans ?_, h4⟩
  rw [ctxNames]
  apply Finset.union_subset (Finset.union_subset _ _) _
  · exact Finset.subset_union_left
  · exact (namesE_edgesOfFacts _).trans Finset.subset_union_left
  · exact Finset.subset_union_right

theorem mem_premiseMatches' {facts : Finset Fact} {premise : Fact}
    {x : Fact × Subst} :
    x ∈ premiseMatches facts premise ↔
      x.1 ∈ facts ∧ unify premise x.1 [] = some x.2 := by
  obtain ⟨f, s⟩ := x
  exact mem_premiseMatches

theorem combos_mem_iff {facts : Finset Fact} {premises : List Fact}
    {combination : List (Fact × Subst)} :
    combination ∈ combosOf (premises.map (premiseMatches facts)) ↔
      List.Forall₂ (fun premise c => c.1 ∈ facts ∧ unify premise c.1 [] = some c.2)
        premises combination := by
  rw [mem_combosOf, List.forall₂_map_right_iff]
  constructor
  · intro h
    exact h.flip.imp fun a b hab => mem_premiseMatches'.1 hab
  · intro h
    exact h.flip.imp fun a b hab => mem_premiseMatches'.2 hab

/-! ## The claims -/

/-- C3: for every set `E` of classification edges,
`compute_classification_closure E` is the least superset of `E` closed
under the transitivity rule (concrete equal middle name; subtype side and
flag from the first edge, supertype side and flag from the second); no
edge of any other shape is added (least-ness). -/
theorem closure_is_least_closed (E : Finset ClassificationEdge) :
    E ⊆ compute_classification_closure E ∧
      ClosedUnder (compute_classification_closure E) ∧
      ∀ S, E ⊆ S → ClosedUnder S → compute_classification_closure E ⊆ S :=
  ⟨compute_classification_closure_subset E,
    compute_classification_closure_closed E,
    fun S hES hS => compute_classification_closure_least E S hES hS⟩

/-- C7: the closure computation is idempotent:
`closure (closure E) = closure E` for every edge set `E`. -/
theorem closure_idempotent (E : Finset ClassificationEdge) :
    compute_classification_closure (compute_classification_closure E) =
      compute_classification_closure E :=
  closure_idem E

/-- C9: unifying a pattern and a fact of two different AST variants fails,
whatever the slot values, flags and incoming substitution. -/
theorem unify_variant_mismatch (p f : Fact) (s : Subst) (h : p.tag ≠ f.tag) :
    unify p f s = none := by
  unfold unify
  have hp := apply_substitution_tag p s
  have hf := apply_substitution_tag f s
  revert hp hf
  cases apply_substitution p s <;> cases apply_substitution f s <;>
    intro hp hf <;>
    first
      | rfl
      | (exfalso; rw [← hp, ← hf] at h; simp [Fact.tag] at h)

/-- C9 witness: a proposition never unifies with an SVO clause. -/
theorem unify_variant_mismatch_witness :
    unify (.prop ⟨['A'], false⟩)
      (.svo ⟨['A'], false, ['B'], false, ['C'], false⟩) [] = none :=
  unify_variant_mismatch _ _ _ (by decide)

/-- C10: a rule with no premises fires unconditionally, even over an empty
fact set: `apply_rule` returns the conclusion unchanged as a singleton,
unless the conclusion is already a known fact, in which case it returns
the empty set. -/
theorem apply_rule_empty_premises (rule : Rule) (context : Context)
    (h : rule.premises = []) :
    apply_rule rule context =
      if rule.conclusion ∈ context.facts then ∅ else {rule.conclusion} := by
  unfold apply_rule
  rw [h]
  simp only [List.map_nil, List.any_nil, Bool.false_eq_true, if_false, combosOf,
    Finset.singleton_biUnion]
  have hm : mergeCombo ([] : List (Fact × Subst)) = some [] := rfl
  rw [hm]
  simp only [apply_substitution_nil]

/-- C10 witness: over the empty context a zero-premise rule derives exactly
its conclusion. -/
theorem apply_rule_empty_premises_witness :
    apply_rule ⟨[], .prop ⟨['A'], false⟩⟩
        ⟨∅, ∅, [], ∅⟩ = {Fact.prop ⟨['A'], false⟩} := by
  rw [apply_rule_empty_premises _ _ rfl]
  decide

/-- C6: `evaluate_query` returns the symbol `⊤` exactly when some fact of
the final fact set unifies with the query's expression starting from the
empty substitution, returns `?` exactly otherwise, and always returns one
of these two symbols (the bindings of the successful unification do not
appear in the output). -/
theorem evaluate_query_spec (query : Query) (context : Context) :
    (evaluate_query query context = "⊤" ↔
      ∃ f ∈ context.facts, (unify query.expression f []).isSome)
    ∧ (evaluate_query query context = "?" ↔
      ¬ ∃ f ∈ context.facts, (unify query.expression f []).isSome)
    ∧ (evaluate_query query context = "⊤" ∨ evaluate_query query context = "?") := by
  have hne : ("⊤" : String) ≠ "?" := by decide
  have hiff : (context.facts.filter fun f => (unify query.expression f []).isSome).Nonempty ↔
      ∃ f ∈ context.facts, (unify query.expression f []).isSome := by
    rw [Finset.filter_nonempty_iff]
  unfold evaluate_query
  by_cases h : (context.facts.filter fun f => (unify query.expression f []).isSome).Nonempty
  · rw [if_pos h]
    exact ⟨iff_of_true rfl (hiff.1 h), iff_of_false hne (not_not_intro (hiff.1 h)),
      Or.inl rfl⟩
  · rw [if_neg h]
    exact ⟨iff_of_false (fun hc => hne hc.symm) (fun hc => h (hiff.2 hc)),
      iff_of_true rfl (fun hc => h (hiff.2 hc)), Or.inr rfl⟩

/-- C1: `apply_rule` unifies each premise against every known fact from an
empty substitution; a premise with zero unifying facts makes the result
empty; otherwise membership in the result is exactly: some combination of
per-premise matches merges consistently and instantiates the conclusion to
a fact not already present; and a combination's merge is rejected exactly
when two of its substitutions bind the same variable name to different
values. -/
theorem apply_rule_spec (rule : Rule) (context : Context) :
    ((∃ premise ∈ rule.premises, ∀ f ∈ context.facts, unify premise f [] = none) →
      apply_rule rule context = ∅)
    ∧ ((∀ premise ∈ rule.premises, ∃ f ∈ context.facts,
          (unify premise f []).isSome) →
        ∀ d, d ∈ apply_rule rule context ↔
          ∃ combination,
            List.Forall₂ (fun premise c => c.1 ∈ context.facts ∧
              unify premise c.1 [] = some c.2) rule.premises combination ∧
            ∃ s, mergeCombo combination = some s ∧
              d = apply_substitution rule.conclusion s ∧ d ∉ context.facts)
    ∧ (∀ combination,
        List.Forall₂ (fun premise c => c.1 ∈ context.facts ∧
          unify premise c.1 [] = some c.2) rule.premises combination →
        (mergeCombo combination = none ↔
          ∃ x ∈ combination, ∃ y ∈ combination, ∃ k v w,
            Subst.find x.2 k = some v ∧ Subst.find y.2 k = some w ∧ v ≠ w)) := by
  refine ⟨?_, ?_, ?_⟩
  · rintro ⟨premise, hp, hnone⟩
    have hempty : premiseMatches context.facts premise = ∅ := by
      rw [Finset.eq_empty_iff_forall_not_mem]
      intro x hx
      obtain ⟨hf, hu⟩ := mem_premiseMatches'.1 hx
      rw [hnone x.1 hf] at hu
      exact absurd hu (by simp)
    have hany : ((rule.premises.map (premiseMatches context.facts)).any
        fun m => decide (m = ∅)) = true := by
      rw [List.any_eq_true]
      exact ⟨premiseMatches context.facts premise,
        List.mem_map.2 ⟨premise, hp, rfl⟩, by simp [hempty]⟩
    unfold apply_rule
    simp [hany]
  · intro hall d
    have hany : ((rule.premises.map (premiseMatches context.facts)).any
        fun m => decide (m = ∅)) = false := by
      rw [List.any_eq_false]
      intro m hm
      obtain ⟨premise, hp, rfl⟩ := List.mem_map.1 hm
      simp only [decide_eq_true_eq]
      obtain ⟨f, hf, hu⟩ := hall premise hp
      obtain ⟨s, hs⟩ := Option.isSome_iff_exists.1 hu
      intro hc
      have : (f, s) ∈ premiseMatches context.facts premise :=
        mem_premiseMatches.2 ⟨hf, hs⟩
      rw [hc] at this
      exact absurd this (by simp)
    rw [mem_apply_rule]
    constructor
    · rintro ⟨-, combination, hc, s, hm, hd, hnin⟩
      exact ⟨combination, combos_mem_iff.1 hc, s, hm, hd, hnin⟩
    · rintro ⟨combination, hf2, s, hm, hd, hnin⟩
      exact ⟨hany, combination, combos_mem_iff.2 hf2, s, hm, hd, hnin⟩
  · intro combination hf2
    have hok : ∀ x ∈ combination, SubstOk x.2 := by
      intro x hx
      obtain ⟨premise, _, hmem⟩ := forall₂_exists_left hf2.flip hx
      exact substOk_unify substOk_nil hmem.2
    exact mergeCombo_eq_none_iff hok

/-- C1 witness: a rule whose premise matches nothing produces nothing. -/
theorem apply_rule_spec_witness :
    apply_rule ⟨[.prop ⟨['P'], false⟩], .prop ⟨['Q'], false⟩⟩ ⟨∅, ∅, [], ∅⟩ = ∅ :=
  (apply_rule_spec ⟨[.prop ⟨['P'], false⟩], .prop ⟨['Q'], false⟩⟩
    ⟨∅, ∅, [], ∅⟩).1 ⟨.prop ⟨['P'], false⟩, by decide, by decide⟩

/-- C2: for the initial context built as `eval_program` builds it, the
fixpoint driver terminates at a stable context (a further round derives
nothing), the fact set only ever grows (across any number of rounds of
`fixpointAux`), and every identifier of the final fact set appears in the
program's asserted facts or rules. -/
theorem fixpoint_terminates_monotone_bounded (assertions : Finset Fact)
    (rules : List Rule) (verb_lexicon : Finset Ident) :
    (∃ res, fixpoint (initContext assertions rules verb_lexicon) = some res ∧
      assertions ⊆ res.facts ∧
      namesF res.facts ⊆ namesF assertions ∪ rulesNames rules ∧
      roundNewFacts res = ∅)
    ∧ (∀ (fuel : Nat) (context res : Context),
        context.classification_edges = edgesOfFacts context.facts →
        fixpointAux fuel context = some res → context.facts ⊆ res.facts) :=
  ⟨fixpoint_init_some assertions rules verb_lexicon, fixpointAux_mono⟩

/-- C8: on fact-shaped nodes, substitution application and unification are
total (the `TypeError` branch is taken only for non-fact nodes, which the
evaluation phase never passes), and `eval_program` succeeds on every
well-formed AST list: the fixpoint loop terminates and each query is
answered. -/
theorem eval_never_fails :
    (∀ (f : Fact) (s : Subst),
      apply_substitutionN (.fact f) s = .ok (.fact (apply_substitution f s)))
    ∧ (∀ (p f : Fact) (s : Subst),
      unifyN (.fact p) (.fact f) s = .ok (unify p f s))
    ∧ (∀ (node : Node) (s : Subst), (∀ f : Fact, node ≠ .fact f) →
      apply_substitutionN node s = .error .unsupportedNode)
    ∧ (∀ ast : List Node, (eval_program ast).isSome) := by
  refine ⟨fun f s => rfl, fun p f s => rfl, ?_, ?_⟩
  · intro node s hn
    cases node with
    | fact f => exact absurd rfl (hn f)
    | rule r => rfl
    | query q => rfl
    | verbDecl v => rfl
  · intro ast
    unfold eval_program
    simp only []
    obtain ⟨res, hres, -⟩ := fixpoint_init_some
      ((ast.filterMap fun n => match n with | .fact f => some f | _ => none).toFinset)
      (ast.filterMap fun n => match n with | .rule r => some r | _ => none)
      ((ast.filterMap fun n => match n with
        | .verbDecl v => some v | _ => none).foldl (fun acc v => insert v acc) ∅)
    rw [hres]
    rfl

/-- C4: for a statement whose identifier tokens collapse to a single merged
token, `parse_svo_clause` delegates to substring segmentation, which fails
with an undeclared-verb error when no vocabulary verb is a substring of
the text, with an ambiguous-verbs error when two distinct vocabulary verbs
occur as substrings, with a missing-subject error when the unique match
starts at position 0, with a missing-object error when it ends at the last
character, and otherwise splits the text at the match into a subject and
an object, each flagged as a variable exactly when it starts with the
marker `其`. -/
theorem segmentSingle_spec (lex : List Ident) (text : Ident) (hnd : lex.Nodup) :
    (∀ (first_token : Token) (ts : List Token), (collectIdents ts).1 = [] →
      parse_svo_clause lex first_token ts =
        (segmentSingle lex first_token.value).map fun f => (f, (collectIdents ts).2))
    ∧ ((∀ v ∈ lex, ¬ v <:+: text) →
        segmentSingle lex text = .error .undeclaredVerb)
    ∧ (∀ v1 v2, v1 ∈ lex → v2 ∈ lex → v1 ≠ v2 → v1 <:+: text → v2 <:+: text →
        segmentSingle lex text = .error .multipleVerbs)
    ∧ (∀ v p, v ∈ lex → findSub v text = some p →
        (∀ w ∈ lex, w <:+: text → w = v) →
        ((p = 0 → segmentSingle lex text = .error .missingSubject)
          ∧ (p ≠ 0 → p + v.length = text.length →
              segmentSingle lex text = .error .missingObject)
          ∧ (p ≠ 0 → p + v.length < text.length →
              segmentSingle lex text = .ok (.svo ⟨text.take p,
                startsWithMarker (text.take p), v, false,
                text.drop (p + v.length),
                startsWithMarker (text.drop (p + v.length))⟩)))) := by
  refine ⟨?_, ?_, ?_, ?_⟩
  · intro first_token ts h
    unfold parse_svo_clause
    simp only [h]
    cases segmentSingle lex first_token.value <;> rfl
  · intro h
    have hnil : findVerbs lex text = [] := by
      apply findVerbs_eq_nil
      intro v hv
      cases hq : findSub v text with
      | none => rfl
      | some p =>
        exact absurd ((findSub_isSome_iff v text).1 (by simp [hq])) (h v hv)
    simp only [segmentSingle, hnil]
  · intro v1 v2 h1 h2 hne hi1 hi2
    obtain ⟨p1, hp1⟩ := Option.isSome_iff_exists.1 ((findSub_isSome_iff v1 text).2 hi1)
    obtain ⟨p2, hp2⟩ := Option.isSome_iff_exists.1 ((findSub_isSome_iff v2 text).2 hi2)
    have hm1 : (v1, p1) ∈ findVerbs lex text := mem_findVerbs.2 ⟨h1, hp1⟩
    have hm2 : (v2, p2) ∈ findVerbs lex text := mem_findVerbs.2 ⟨h2, hp2⟩
    cases hfv : findVerbs lex text with
    | nil => rw [hfv] at hm1; simp at hm1
    | cons a tl =>
      cases tl with
      | nil =>
        rw [hfv] at hm1 hm2
        simp only [List.mem_singleton] at hm1 hm2
        have : v1 = v2 := congrArg Prod.fst (hm1.trans hm2.symm)
        exact absurd this hne
      | cons b tl2 =>
        simp only [segmentSingle, hfv]
  · intro v p hv hp huniq
    have hothers : ∀ w ∈ lex, w ≠ v → findSub w text = none := by
      intro w hw hwv
      cases hq : findSub w text with
      | none => rfl
      | some q =>
        exact absurd (huniq w hw ((findSub_isSome_iff w text).1 (by simp [hq]))) hwv
    have hfv : findVerbs lex text = [(v, p)] := findVerbs_eq_single hnd hv hp hothers
    refine ⟨?_, ?_, ?_⟩
    · intro h0
      simp only [segmentSingle, hfv]
      rw [if_pos h0]
    · intro h0 heq
      simp only [segmentSingle, hfv]
      rw [if_neg h0, if_pos (by omega)]
    · intro h0 hlt
      simp only [segmentSingle, hfv]
      rw [if_neg h0, if_neg (by omega)]

/-- C4 witness: with the single declared verb `b`, the merged token `abc`
splits into subject `a`, verb `b`, object `c`. -/
theorem segmentSingle_spec_witness :
    segmentSingle [['b']] ['a', 'b', 'c'] =
      .ok (.svo ⟨['a'], startsWithMarker ['a'], ['b'], false,
        ['c'], startsWithMarker ['c']⟩) :=
  ((segmentSingle_spec [['b']] ['a', 'b', 'c'] (by decide)).2.2.2 ['b'] 1
    (by decide) (by decide) (by decide)).2.2 (by decide) (by decide)

/-- C5 counterexample: at top level, a bare identifier containing no
declared verb and followed directly by a statement boundary is NOT parsed
as a plain proposition — `parse_statement` routes it to SVO segmentation,
which fails with an undeclared-verb error. -/
theorem parse_statement_bare_prop_counterexample :
    parse_statement [] [⟨.IDENTIFIER, ['A']⟩, ⟨.NEWLINE, ['\n']⟩, ⟨.EOF, []⟩] =
      .error .undeclaredVerb := by
  rfl

/-- C5 (amended): in expression position — rule premises and conclusions
and query bodies, i.e. `parse_expression` — an identifier or variable
token containing no declared verb as a substring and followed directly by
a statement boundary (`NEWLINE`, `EOF`, or one of the keywords `乎`, `則`,
`且`) is parsed as a plain proposition carrying the token's variable flag,
without attempting SVO segmentation.  (At top level, `parse_statement`
attempts SVO segmentation instead — see the counterexample.) -/
theorem parse_expression_bare_prop (lex : List Ident) (t : Token)
    (rest : List Token)
    (h1 : t.type = .IDENTIFIER ∨ t.type = .VARIABLE)
    (h2 : ∀ v ∈ lex, containsSub v t.value = false)
    (h3 : (peekT rest).type = .NEWLINE ∨ (peekT rest).type = .EOF ∨
      ((peekT rest).type = .KEYWORD ∧ ((peekT rest).value = ['乎'] ∨
        (peekT rest).value = ['則'] ∨ (peekT rest).value = ['且']))) :
    parse_expression lex (t :: rest) =
      .ok (.prop ⟨t.value, decide (t.type = .VARIABLE)⟩, rest) := by
  have hany : (lex.any fun v => containsSub v t.value) = false := by
    rw [List.any_eq_false]
    intro v hv
    simp [h2 v hv]
  have hnkw : ¬(t.type = TokenType.KEYWORD ∧ t.value = ['曰']) := by
    rcases h1 with h1 | h1 <;> rw [h1] <;> rintro ⟨hc, -⟩ <;> cases hc
  have hadv : advanceT (t :: rest) = rest := by
    simp only [advanceT]
    rw [if_neg]
    rcases h1 with h1 | h1 <;> rw [h1] <;> intro hc <;> cases hc
  have hnzhe : ¬((peekT rest).type = TokenType.KEYWORD ∧
      (peekT rest).value = ['者']) := by
    rcases h3 with h3 | h3 | ⟨h3, hval⟩
    · rw [h3]; rintro ⟨hc, -⟩; cases hc
    · rw [h3]; rintro ⟨hc, -⟩; cases hc
    · rintro ⟨-, hc⟩
      rcases hval with hval | hval | hval <;> rw [hval] at hc <;>
        exact absurd hc (by decide)
  unfold parse_expression
  simp only []
  rw [show peekT (t :: rest) = t from rfl, hadv]
  rw [if_neg hnkw, if_pos h1, if_neg hnzhe, if_pos ⟨hany, h3⟩]

/-- C5 (amended) witness: with an empty lexicon, the expression `A` before
`EOF` parses as the plain proposition `A`. -/
theorem parse_expression_bare_prop_witness :
    parse_expression [] [⟨.IDENTIFIER, ['A']⟩, ⟨.EOF, []⟩] =
      .ok (.prop ⟨['A'], false⟩, [⟨.EOF, []⟩]) :=
  parse_expression_bare_prop [] ⟨.IDENTIFIER, ['A']⟩ [⟨.EOF, []⟩]
    (by decide) (by decide) (by decide)

end Ink
